import Mathlib

/-!
# Verification of the AIND-Sudoku solver (`solution.py`)

Shallow embedding of the diagonal-sudoku solver in `solution.py`.

Representation choices:
* a Python string is modelled as a `List Char`;
* the `values` dictionary (`{'A1': '123', ...}`) is modelled as an
  association list `List (Box × Value)`, in insertion order, which is the
  iteration order of a Python `dict`.  Dictionary assignment to an existing
  key is modelled as replacing the first (and, for every board reachable
  from `grid_values`, unique) entry with that key, in place;
* the module-global `assignments` list is threaded through every function
  as an explicit `Log` component of the state;
* Python's `set` of peers is modelled as a duplicate-free list; the solver
  never depends on the iteration order of that set for its board results.
-/

set_option maxRecDepth 2048

namespace AindSudoku

abbrev Box := List Char
abbrev Value := List Char
abbrev Board := List (Box × Value)
abbrev Log := List Board
abbrev St := Board × Log

/-- Python `str(i)` for a one-digit number `i`. -/
def digitChar (n : Nat) : Char := Char.ofNat (48 + n)

/-- `rows = 'ABCDEFGHI'` -/
def rows : List Char := "ABCDEFGHI".toList

/-- `cols = '123456789'` -/
def cols : List Char := "123456789".toList

/-- The digit string `'123456789'` used by `grid_values` and `only_choice`. -/
def digits : List Char := "123456789".toList

/-- `cross(a, b)`: `[s+t for s in a for t in b]`. -/
def cross (a b : List Char) : List Box :=
  a.flatMap (fun s => b.map (fun t => [s, t]))

/-- `boxes = cross(rows, cols)` -/
def boxes : List Box := cross rows cols

/-- `row_units = [cross(r, cols) for r in rows]` -/
def row_units : List (List Box) := rows.map (fun r => cross [r] cols)

/-- `column_units = [cross(rows, col) for col in cols]` -/
def column_units : List (List Box) := cols.map (fun c => cross rows [c])

/-- `square_units = [cross(rows, columns) for rows in ('ABC','DEF','GHI') for columns in ('123','456','789')]` -/
def square_units : List (List Box) :=
  [['A','B','C'], ['D','E','F'], ['G','H','I']].flatMap
    (fun rs => [['1','2','3'], ['4','5','6'], ['7','8','9']].map (fun cs => cross rs cs))

/-- `left_diagonal_units = [[a + str(i) for i, a in enumerate(rows, 1)]]` -/
def left_diagonal_units : List (List Box) :=
  [rows.enum.map (fun p => [p.2, digitChar (p.1 + 1)])]

/-- `right_diagonal_units = [[a + str(9-i) for i, a in enumerate(rows)]]` -/
def right_diagonal_units : List (List Box) :=
  [rows.enum.map (fun p => [p.2, digitChar (9 - p.1)])]

/-- `unitlist = row_units + column_units + square_units + left_diagonal_units + right_diagonal_units` -/
def unitlist : List (List Box) :=
  row_units ++ column_units ++ square_units ++ left_diagonal_units ++ right_diagonal_units

/-- `units = dict((box, [u for u in unitlist if box in u]) for box in boxes)` -/
def units (b : Box) : List (List Box) :=
  unitlist.filter (fun u => decide (b ∈ u))

/-- `peers = dict((box, set(sum(units[box], []))-set([box])) for box in boxes)`.
The Python set is modelled as a duplicate-free list. -/
def peers (b : Box) : List Box :=
  ((units b).flatten.dedup).filter (fun p => decide (p ≠ b))

/-- Dictionary lookup `values[box]` (all lookups in the solver are on present
keys; a missing key returns `[]` in the model). -/
def bGet : Board → Box → Value
  | [], _ => []
  | p :: ps, k => if p.1 = k then p.2 else bGet ps k

/-- Dictionary assignment `values[box] = value` for a present key: replace the
first entry holding that key. -/
def bSet : Board → Box → Value → Board
  | [], _, _ => []
  | p :: ps, k, x => if p.1 = k then (k, x) :: ps else p :: bSet ps k x

/-- Keys of the board, `values.keys()`, in dictionary order. -/
def keysOf (v : Board) : List Box := v.map Prod.fst

/-- If `t` is a non-empty pattern starting the string, drop it. -/
def dropPre : List Char → List Char → Option (List Char)
  | [], s => some s
  | _ :: _, [] => none
  | c :: t, x :: s => if x = c then dropPre t s else none

theorem dropPre_length {t s r : List Char} (h : dropPre t s = some r) :
    r.length + t.length = s.length := by
  induction t generalizing s with
  | nil => simp [dropPre] at h; simp [h]
  | cons c t ih =>
    cases s with
    | nil => simp [dropPre] at h
    | cons x s =>
      simp only [dropPre] at h
      split at h
      · have := ih h
        simp only [List.length_cons]
        omega
      · exact absurd h (by simp)

/-- Python `s.replace(t, '')`: remove all (non-overlapping, left-to-right)
occurrences of `t` from `s`; the empty pattern leaves `s` unchanged. -/
def removeStr (t : List Char) : List Char → List Char
  | [] => []
  | x :: s =>
    match h : dropPre t (x :: s) with
    | some rest => if ht : t = [] then x :: s else removeStr t rest
    | none => x :: removeStr t s
termination_by s => s.length
decreasing_by
  · have hl := dropPre_length h
    have : 1 ≤ t.length := by
      cases t with
      | nil => exact absurd rfl ht
      | cons a b => simp
    simp at hl ⊢
    omega
  · simp

/-- `assign_value(values, box, value)`: set the value; if it has length 1,
append a snapshot of the board to the assignments log. -/
def assign_value (st : St) (box : Box) (value : Value) : St :=
  let v := bSet st.1 box value
  if value.length = 1 then (v, st.2 ++ [v]) else (v, st.2)

/-- One iteration of the inner loop of `naked_twins`: process `box` of the
unit, with `pair` the common value of the two twin boxes. -/
def ntBoxStep (pair : Value) (a : St) (box : Box) : St :=
  -- skip solved values
  if (bGet a.1 box).length = 1 then a
  else if bGet a.1 box ≠ pair then
    -- values[box] = values[box].replace(pair[0], '')
    let a1 : St := (bSet a.1 box (removeStr [pair.getD 0 ' '] (bGet a.1 box)), a.2)
    -- values[box] = values[box].replace(pair[1], '')
    let a2 : St := (bSet a1.1 box (removeStr [pair.getD 1 ' '] (bGet a1.1 box)), a1.2)
    -- assign_value(values, box, values[box])
    assign_value a2 box (bGet a2.1 box)
  else a

/-- The body of `naked_twins` for one unit of `unitlist`. -/
def nt_unit (acc : St) (unit : List Box) : St :=
  -- pairs = [box for box in unit if len(values[box]) == 2]
  let pairs := unit.filter (fun box => (bGet acc.1 box).length == 2)
  -- if len(pairs) == 2 and values[pairs[0]] == values[pairs[1]]:
  match pairs with
  | [p0, p1] =>
    if bGet acc.1 p0 = bGet acc.1 p1 then
      unit.foldl (ntBoxStep (bGet acc.1 p0)) acc
    else acc
  | _ => acc

/-- `naked_twins(values)`: iterate over all units. -/
def naked_twins (st : St) : St := unitlist.foldl nt_unit st

/-- The inner loop body of `eliminate`: remove `digit` from one peer. -/
def elimPeerStep (digit : Value) (acc2 : St) (peer : Box) : St :=
  -- values[peer] = values[peer].replace(digit, '')
  let st1 : St := (bSet acc2.1 peer (removeStr digit (bGet acc2.1 peer)), acc2.2)
  -- assign_value(values, peer, values[peer])
  assign_value st1 peer (bGet st1.1 peer)

/-- The outer loop body of `eliminate`: process one solved box. -/
def elimBoxStep (acc : St) (box : Box) : St :=
  (peers box).foldl (elimPeerStep (bGet acc.1 box)) acc

/-- `eliminate(values)`. -/
def eliminate (st : St) : St :=
  -- solved_values = [box for box in values.keys() if len(values[box]) == 1]
  let solved := (keysOf st.1).filter (fun box => (bGet st.1 box).length == 1)
  solved.foldl elimBoxStep st

/-- The inner loop body of `only_choice`: one unit, one digit. -/
def ocDigitStep (unit : List Box) (acc2 : St) (digit : Char) : St :=
  -- dplaces = [box for box in unit if digit in values[box]]
  let dplaces := unit.filter (fun box => (bGet acc2.1 box).contains digit)
  match dplaces with
  | [b0] =>
    -- values[dplaces[0]] = digit; assign_value(values, dplaces[0], digit)
    assign_value (bSet acc2.1 b0 [digit], acc2.2) b0 [digit]
  | _ => acc2

/-- `only_choice(values)`. -/
def only_choice (st : St) : St :=
  unitlist.foldl (fun acc unit => digits.foldl (ocDigitStep unit) acc) st

/-- `len([box for box in values.keys() if len(values[box]) == 1])` -/
def solvedCount (v : Board) : Nat :=
  ((keysOf v).filter (fun b => (bGet v b).length == 1)).length

/-- Truthiness of `[box for box in values.keys() if len(values[box]) == 0]`. -/
def anyEmpty (v : Board) : Bool :=
  !((keysOf v).filter (fun b => (bGet v b).length == 0)).isEmpty

/-- Total number of candidate characters on the board (termination measure for
the reduction loop and fuel bound for the search). -/
def totalLen (v : Board) : Nat := (v.map (fun p => p.2.length)).sum

/-!
## Basic lemmas about the board operations

These are needed before `reduce_puzzle` and `search` can be defined, because
the termination of the source's `while`-loop and recursion rests on the fact
that the propagation rules only ever remove candidate characters.
-/

theorem keysOf_bSet (v : Board) (k : Box) (x : Value) :
    keysOf (bSet v k x) = keysOf v := by
  induction v with
  | nil => rfl
  | cons p ps ih =>
    simp only [bSet]
    split
    · rename_i hp; simp [keysOf, hp]
    · simpa [keysOf] using ih

theorem bGet_bSet_ne (v : Board) {k k' : Box} (x : Value) (h : k' ≠ k) :
    bGet (bSet v k x) k' = bGet v k' := by
  induction v with
  | nil => rfl
  | cons p ps ih =>
    simp only [bSet]
    by_cases hp : p.1 = k
    · rw [if_pos hp]
      simp only [bGet]
      rw [if_neg (fun hk : k = k' => h hk.symm),
        if_neg (by rw [hp]; exact fun hk => h hk.symm)]
    · rw [if_neg hp]
      simp only [bGet]
      rw [ih]

theorem bGet_bSet_self (v : Board) {k : Box} (x : Value) (h : k ∈ keysOf v) :
    bGet (bSet v k x) k = x := by
  induction v with
  | nil => simp [keysOf] at h
  | cons p ps ih =>
    simp only [bSet]
    by_cases hp : p.1 = k
    · simp [hp, bGet]
    · rw [if_neg hp]
      simp only [bGet, if_neg hp]
      apply ih
      have hcons : keysOf (p :: ps) = p.1 :: keysOf ps := rfl
      rw [hcons] at h
      rcases List.mem_cons.mp h with h1 | h1
      · exact absurd h1.symm hp
      · exact h1

theorem bSet_self (v : Board) (k : Box) : bSet v k (bGet v k) = v := by
  induction v with
  | nil => rfl
  | cons p ps ih =>
    cases p with
    | mk pk pv =>
      simp only [bSet, bGet]
      by_cases hp : pk = k
      · subst hp; simp
      · simp only [if_neg hp]
        rw [ih]

theorem bSet_bSet_same (v : Board) (k : Box) (x y : Value) :
    bSet (bSet v k x) k y = bSet v k y := by
  induction v with
  | nil => rfl
  | cons p ps ih =>
    simp only [bSet]
    by_cases hp : p.1 = k
    · simp [hp, bSet]
    · simp [hp, bSet, ih]

theorem dropPre_sublist {t s r : List Char} (h : dropPre t s = some r) :
    r.Sublist s := by
  induction t generalizing s with
  | nil => simp [dropPre] at h; simp [h]
  | cons c t ih =>
    cases s with
    | nil => simp [dropPre] at h
    | cons x s =>
      simp only [dropPre] at h
      split at h
      · exact (ih h).cons x
      · exact absurd h (by simp)

theorem removeStr_cons_none {t : List Char} {x : Char} {s : List Char}
    (h : dropPre t (x :: s) = none) :
    removeStr t (x :: s) = x :: removeStr t s := by
  rw [removeStr.eq_def]
  split
  · rename_i r hr; simp at hr
  · rename_i a x2 s2 heq
    injection heq with hx hs
    subst hx; subst hs
    split
    · rename_i r hr; rw [h] at hr; simp at hr
    · rfl

theorem removeStr_cons_some {t : List Char} {x : Char} {s rest : List Char}
    (h : dropPre t (x :: s) = some rest) (ht : t ≠ []) :
    removeStr t (x :: s) = removeStr t rest := by
  rw [removeStr.eq_def]
  split
  · rename_i r hr; simp at hr
  · rename_i a x2 s2 heq
    injection heq with hx hs
    subst hx; subst hs
    split
    · rename_i r hr
      rw [h] at hr
      injection hr with h2
      subst h2
      exact dif_neg ht
    · rename_i hr; rw [h] at hr; simp at hr

theorem removeStr_cons_empty {x : Char} {s : List Char} :
    removeStr [] (x :: s) = x :: s := by
  rw [removeStr.eq_def]
  split
  · rename_i r hr; simp at hr
  · rename_i a x2 s2 heq
    injection heq with hx hs
    subst hx; subst hs
    split
    · exact dif_pos rfl
    · rename_i hr; simp [dropPre] at hr

theorem removeStr_sublist (t s : List Char) : (removeStr t s).Sublist s := by
  refine removeStr.induct t (fun s => (removeStr t s).Sublist s) ?_ ?_ ?_ ?_ s
  · simp [removeStr.eq_1]
  · intro x s rest hdrop ht
    subst ht
    rw [removeStr_cons_empty]
  · intro x s rest hdrop ht ih
    rw [removeStr_cons_some hdrop ht]
    exact ih.trans (dropPre_sublist hdrop)
  · intro x s hdrop ih
    rw [removeStr_cons_none hdrop]
    exact ih.cons₂ x

/-- `Shrinks w v`: board `w` is board `v` with every key kept in place and
every candidate string replaced by one of its sublists.  Every propagation
rule of the solver shrinks the board in this sense, which is what makes the
source's `while` loop and recursion terminate. -/
def Shrinks (w v : Board) : Prop :=
  List.Forall₂ (fun q p => q.1 = p.1 ∧ q.2.Sublist p.2) w v

theorem shrinks_refl (v : Board) : Shrinks v v := by
  induction v with
  | nil => exact List.Forall₂.nil
  | cons p ps ih => exact List.Forall₂.cons ⟨rfl, List.Sublist.refl _⟩ ih

theorem shrinks_trans {u w v : Board} (h1 : Shrinks u w) (h2 : Shrinks w v) :
    Shrinks u v := by
  induction h1 generalizing v with
  | nil => cases h2; exact List.Forall₂.nil
  | cons hq h1 ih =>
    cases h2 with
    | cons hp h2 => exact List.Forall₂.cons ⟨hq.1.trans hp.1, hq.2.trans hp.2⟩ (ih h2)

theorem shrinks_keysOf {w v : Board} (h : Shrinks w v) : keysOf w = keysOf v := by
  induction h with
  | nil => rfl
  | cons hq h ih =>
    simp only [keysOf, List.map_cons] at ih ⊢
    rw [hq.1, ih]

theorem shrinks_bGet {w v : Board} (h : Shrinks w v) (k : Box) :
    (bGet w k).Sublist (bGet v k) := by
  induction h with
  | nil => exact List.Sublist.refl _
  | @cons q p l1 l2 hq h ih =>
    simp only [bGet, hq.1]
    by_cases hk : p.1 = k
    · rw [if_pos hk, if_pos hk]; exact hq.2
    · rw [if_neg hk, if_neg hk]; exact ih

theorem shrinks_bSet {v : Board} {k : Box} {x : Value} (h : x.Sublist (bGet v k)) :
    Shrinks (bSet v k x) v := by
  induction v with
  | nil => exact List.Forall₂.nil
  | cons p ps ih =>
    simp only [bSet]
    by_cases hp : p.1 = k
    · rw [if_pos hp]
      refine List.Forall₂.cons ⟨hp.symm, ?_⟩ (shrinks_refl ps)
      simpa [bGet, hp] using h
    · rw [if_neg hp]
      refine List.Forall₂.cons ⟨rfl, List.Sublist.refl _⟩ (ih ?_)
      simpa [bGet, hp] using h

theorem shrinks_totalLen_le {w v : Board} (h : Shrinks w v) :
    totalLen w ≤ totalLen v := by
  induction h with
  | nil => exact Nat.le.refl
  | @cons q p l1 l2 hq h ih =>
    simp only [totalLen, List.map_cons, List.sum_cons] at ih ⊢
    exact Nat.add_le_add hq.2.length_le ih

theorem shrinks_eq_of_totalLen {w v : Board} (h : Shrinks w v)
    (hl : totalLen w = totalLen v) : w = v := by
  induction h with
  | nil => rfl
  | @cons q p l1 l2 hq h ih =>
    simp only [totalLen, List.map_cons, List.sum_cons] at hl
    have h1 : q.2.length ≤ p.2.length := hq.2.length_le
    have h2 : totalLen l1 ≤ totalLen l2 := shrinks_totalLen_le h
    simp only [totalLen] at h2
    have hq2 : q.2.length = p.2.length := by omega
    have hl2 : totalLen l1 = totalLen l2 := by simp only [totalLen]; omega
    have hqp : q = p := by
      have hv := hq.2.eq_of_length hq2
      have hk := hq.1
      cases q; cases p
      simp only at hv hk
      simp [hk, hv]
    rw [hqp, ih hl2]

theorem shrinks_totalLen_lt {w v : Board} (h : Shrinks w v)
    (hne : solvedCount w ≠ solvedCount v) : totalLen w < totalLen v := by
  rcases Nat.lt_or_ge (totalLen w) (totalLen v) with hlt | hge
  · exact hlt
  · exfalso
    have hle := shrinks_totalLen_le h
    have heq : totalLen w = totalLen v := Nat.le_antisymm hle hge
    exact hne (by rw [shrinks_eq_of_totalLen h heq])

theorem foldl_shrinks {α : Type} {f : St → α → St} (l : List α)
    (hf : ∀ s a, Shrinks (f s a).1 s.1) (st : St) :
    Shrinks (l.foldl f st).1 st.1 := by
  induction l generalizing st with
  | nil => exact shrinks_refl _
  | cons a l ih => exact shrinks_trans (ih (f st a)) (hf st a)

theorem assign_value_board (st : St) (box : Box) (value : Value) :
    (assign_value st box value).1 = bSet st.1 box value := by
  simp only [assign_value]
  split <;> rfl

theorem elimPeerStep_shrinks (digit : Value) (s2 : St) (peer : Box) :
    Shrinks (elimPeerStep digit s2 peer).1 s2.1 := by
  unfold elimPeerStep
  dsimp only
  rw [assign_value_board, bSet_self]
  exact shrinks_bSet (removeStr_sublist _ _)

theorem elimBoxStep_shrinks (s : St) (box : Box) :
    Shrinks (elimBoxStep s box).1 s.1 := by
  unfold elimBoxStep
  exact foldl_shrinks _ (fun s2 peer => elimPeerStep_shrinks _ s2 peer) s

theorem eliminate_shrinks (st : St) : Shrinks (eliminate st).1 st.1 := by
  apply foldl_shrinks
  intro s box
  exact elimBoxStep_shrinks s box

theorem ocDigitStep_shrinks (unit : List Box) (s2 : St) (digit : Char) :
    Shrinks (ocDigitStep unit s2 digit).1 s2.1 := by
  unfold ocDigitStep
  dsimp only
  rcases hd : unit.filter (fun box => (bGet s2.1 box).contains digit) with _ | ⟨b0, rest⟩
  · exact shrinks_refl _
  · rcases rest with _ | ⟨b1, rest⟩
    · rw [assign_value_board, bSet_bSet_same]
      apply shrinks_bSet
      have hb0 : b0 ∈ unit.filter (fun box => (bGet s2.1 box).contains digit) := by
        rw [hd]; exact List.mem_cons_self _ _
      have := (List.mem_filter.mp hb0).2
      exact List.singleton_sublist.mpr (by simpa using this)
    · exact shrinks_refl _

theorem only_choice_shrinks (st : St) : Shrinks (only_choice st).1 st.1 := by
  apply foldl_shrinks
  intro s unit
  exact foldl_shrinks _ (fun s2 digit => ocDigitStep_shrinks unit s2 digit) s

theorem ntBoxStep_shrinks (pair : Value) (a : St) (box : Box) :
    Shrinks (ntBoxStep pair a box).1 a.1 := by
  unfold ntBoxStep
  by_cases h1 : (bGet a.1 box).length = 1
  · rw [if_pos h1]; exact shrinks_refl _
  · rw [if_neg h1]
    split
    · dsimp only
      rw [assign_value_board, bSet_self]
      exact shrinks_trans (shrinks_bSet (removeStr_sublist _ _))
        (shrinks_bSet (removeStr_sublist _ _))
    · exact shrinks_refl _

theorem nt_unit_shrinks (acc : St) (unit : List Box) :
    Shrinks (nt_unit acc unit).1 acc.1 := by
  unfold nt_unit
  dsimp only
  split
  · split
    · exact foldl_shrinks _ (fun a box => ntBoxStep_shrinks _ a box) acc
    · exact shrinks_refl _
  · exact shrinks_refl _

theorem naked_twins_shrinks (st : St) : Shrinks (naked_twins st).1 st.1 :=
  foldl_shrinks unitlist (fun s u => nt_unit_shrinks s u) st

theorem pipeline_shrinks (st : St) :
    Shrinks (naked_twins (only_choice (eliminate st))).1 st.1 :=
  shrinks_trans (shrinks_trans (naked_twins_shrinks _) (only_choice_shrinks _))
    (eliminate_shrinks st)

/-!
## The reduction loop, the search and `solve`
-/

/-- The body of `reduce_puzzle`'s `while` loop, with a structural iteration
counter.  The counter is a device of the embedding only: `reduce_puzzle`
below invokes the loop with `totalLen` of the board plus one, and
`reduceLoop_fuel` proves that any counter exceeding `totalLen` yields the
same result, because every non-stalled iteration strictly shrinks the board
(`shrinks_totalLen_lt`); so the counter never runs out and the Python loop
is modelled exactly. -/
def reduceLoop : Nat → St → Option Board × Log
  | 0, st => (none, st.2)
  | fuel + 1, st =>
    -- solved_values_before = len([...]); apply the three constraints
    let st1 := naked_twins (only_choice (eliminate st))
    -- sanity check: a box with no available values
    if anyEmpty st1.1 then (none, st1.2)
    -- stalled: solved_values_before == solved_values_after
    else if solvedCount st.1 = solvedCount st1.1 then (some st1.1, st1.2)
    else reduceLoop fuel st1

/-- `reduce_puzzle(values)`: iterate the three rules until the number of
solved boxes stops changing, returning `none` (Python `False`) as soon as a
box has no candidates left. -/
def reduce_puzzle (st : St) : Option Board × Log :=
  reduceLoop (totalLen st.1 + 1) st

theorem reduceLoop_fuel :
    ∀ (fuel : Nat) (st : St), totalLen st.1 < fuel →
      reduceLoop fuel st = reduceLoop (totalLen st.1 + 1) st := by
  intro fuel
  induction fuel using Nat.strong_induction_on with
  | _ fuel ih =>
    intro st hlt
    cases fuel with
    | zero => omega
    | succ fuel =>
      simp only [reduceLoop]
      split
      · rfl
      · split
        · rfl
        · rename_i h1 h2
          have hdec : totalLen (naked_twins (only_choice (eliminate st))).1 <
              totalLen st.1 :=
            shrinks_totalLen_lt (pipeline_shrinks st) (fun hc => h2 hc.symm)
          rw [ih fuel (Nat.lt_succ_self fuel) _ (by omega),
            ih (totalLen st.1) (by omega) _ hdec]

/-- `reduce_puzzle` satisfies the defining equation of the source's `while`
loop (the iteration counter is invisible). -/
theorem reduce_puzzle_eq (st : St) :
    reduce_puzzle st =
      (let st1 := naked_twins (only_choice (eliminate st))
       if anyEmpty st1.1 then (none, st1.2)
       else if solvedCount st.1 = solvedCount st1.1 then (some st1.1, st1.2)
       else reduce_puzzle st1) := by
  show reduceLoop (totalLen st.1 + 1) st = _
  simp only [reduceLoop]
  split
  · rfl
  · split
    · rfl
    · rename_i h1 h2
      have hdec : totalLen (naked_twins (only_choice (eliminate st))).1 <
          totalLen st.1 :=
        shrinks_totalLen_lt (pipeline_shrinks st) (fun hc => h2 hc.symm)
      exact reduceLoop_fuel _ _ hdec

/-- The selection loop of `search`: find the non-solved box with the least
number of values (first such box in dictionary order wins ties). -/
def pickStep (v : Board) (least : Option Box) (p : Box × Value) : Option Box :=
  if p.2.length > 1 then
    -- if least_values_box is None: least_values_box = box
    let b := least.getD p.1
    -- if len(box_values) < len(reduced_values[least_values_box]): ...
    if p.2.length < (bGet v b).length then some p.1 else some b
  else least

/-- `least_values_box` after the selection loop of `search`. -/
def pickLeast (v : Board) : Option Box := v.foldl (pickStep v) none

/-- The trial loop of `search`, parametrised by the recursive search call
`f`: `for value in reduced_values[least_values_box]`.  Each iteration works
on `op_values = reduced_values.copy()` with the trial value assigned; a
non-`False` result is returned at once (a `values` dict has 81 entries and
so is always truthy in the source's `if op_search_result`). -/
def tryValsWith (f : St → Option Board × Log) (r : Board) (b : Box) :
    List Char → Log → Option Board × Log
  | [], log => (none, log)
  | c :: cs, log =>
    -- op_values = reduced_values.copy(); op_values[box] = value; assign_value
    let st1 := assign_value (bSet r b [c], log) b [c]
    match f st1 with
    | (some res, log2) => (some res, log2)
    | (none, log2) => tryValsWith f r b cs log2

/-- The body of `search` other than the trial recursion: run the reduction
loop, return `False` on contradiction, return the board if every box is
solved, otherwise branch on the picked box using the recursive search `next`. -/
def searchStep (next : St → Option Board × Log) (st : St) : Option Board × Log :=
  match reduce_puzzle st with
  | (none, log) => (none, log)
  | (some r, log) =>
    match pickLeast r with
    -- if none was found we have then already solved it
    | none => (some r, log)
    | some b => tryValsWith next r b (bGet r b) log

/-- `search(values)`, with an explicit recursion-depth counter.  The counter
is a device of the embedding: every recursive call strictly decreases
`totalLen` of the board, so `solve`'s choice of `totalLen` plus one never
runs out. -/
def searchF : Nat → St → Option Board × Log
  | 0, st => (none, st.2)
  | fuel + 1, st => searchStep (fun st2 => searchF fuel st2) st

/-- The trial loop as it appears in `search`. -/
def tryVals (fuel : Nat) (r : Board) (b : Box) (cs : List Char) (log : Log) :
    Option Board × Log :=
  tryValsWith (searchF fuel) r b cs log

theorem searchF_zero (st : St) : searchF 0 st = (none, st.2) := rfl

theorem searchF_succ (fuel : Nat) (st : St) :
    searchF (fuel + 1) st = searchStep (fun st2 => searchF fuel st2) st := rfl

/-- The dictionary built by `grid_values` before the `assign_value` replay:
`dict(map(empty_mapper, zip(boxes, grid)))`.  `zip` silently truncates to the
shorter of its arguments; `empty_mapper` replaces `'.'` by the full digit
string and keeps any other character as the box value. -/
def gridBoard (grid : List Char) : Board :=
  (boxes.zip grid).map (fun t => if t.2 = '.' then (t.1, digits) else (t.1, [t.2]))

/-- `grid_values(grid)`: build the dictionary, then replay every entry
through `assign_value` (for the visualizer log). -/
def grid_values (grid : List Char) (log : Log) : St :=
  let values : Board := gridBoard grid
  -- for box, value in values.items(): assign_value(values, box, value)
  values.foldl (fun acc p => assign_value acc p.1 p.2) (values, log)

/-- `solve(grid)`. -/
def solve (grid : List Char) (log : Log) : Option Board × Log :=
  let st := grid_values grid log
  -- for box, value in values.items(): assign_value(values, box, value)
  let st2 := st.1.foldl (fun acc p => assign_value acc p.1 p.2) st
  searchF (totalLen st2.1 + 1) st2

/-!
## Static facts about the topology
-/

theorem boxes_nodup : boxes.Nodup := by decide

theorem boxes_length : boxes.length = 81 := by decide

theorem unit_length_nodup : ∀ u ∈ unitlist, u.length = 9 ∧ u.Nodup := by decide

theorem unit_sub_boxes : ∀ u ∈ unitlist, ∀ b ∈ u, b ∈ boxes := by decide

/-- Membership in `peers`: exactly the boxes sharing some unit, except the box
itself. -/
theorem mem_peers {b p : Box} :
    p ∈ peers b ↔ p ≠ b ∧ ∃ u ∈ unitlist, b ∈ u ∧ p ∈ u := by
  simp only [peers, List.mem_filter, List.mem_dedup, List.mem_flatten,
    decide_eq_true_eq]
  constructor
  · rintro ⟨⟨u, hu, hp⟩, hne⟩
    simp only [units, List.mem_filter, decide_eq_true_eq] at hu
    exact ⟨hne, u, hu.1, hu.2, hp⟩
  · rintro ⟨hne, u, hu, hb, hp⟩
    refine ⟨⟨u, ?_, hp⟩, hne⟩
    simp only [units, List.mem_filter, decide_eq_true_eq]
    exact ⟨hu, hb⟩

/-- Two distinct boxes of one unit are peers of each other. -/
theorem peers_of_unit {u : List Box} {p q : Box} (hu : u ∈ unitlist)
    (hp : p ∈ u) (hq : q ∈ u) (hne : q ≠ p) : q ∈ peers p :=
  mem_peers.mpr ⟨hne, u, hu, hp, hq⟩

/-!
## Keys and entries of a board
-/

theorem mem_of_key {v : Board} {k : Box} (h : k ∈ keysOf v) :
    (k, bGet v k) ∈ v := by
  induction v with
  | nil => simp [keysOf] at h
  | cons p ps ih =>
    simp only [bGet]
    by_cases hp : p.1 = k
    · rw [if_pos hp]
      subst hp
      cases p
      simp
    · rw [if_neg hp]
      have hcons : keysOf (p :: ps) = p.1 :: keysOf ps := rfl
      rw [hcons] at h
      rcases List.mem_cons.mp h with h1 | h1
      · exact absurd h1.symm hp
      · exact List.mem_cons_of_mem _ (ih h1)

theorem bGet_of_mem {v : Board} {k : Box} {x : Value}
    (hnd : (keysOf v).Nodup) (h : (k, x) ∈ v) : bGet v k = x := by
  induction v with
  | nil => simp at h
  | cons p ps ih =>
    simp only [bGet]
    rcases List.mem_cons.mp h with h1 | h1
    · rw [← h1]
      simp
    · have hk : k ∈ keysOf ps := by
        simp only [keysOf, List.mem_map]
        exact ⟨(k, x), h1, rfl⟩
      have hcons : keysOf (p :: ps) = p.1 :: keysOf ps := rfl
      rw [hcons] at hnd
      have hp : p.1 ≠ k := fun he => (List.nodup_cons.mp hnd).1 (he ▸ hk)
      rw [if_neg hp]
      exact ih (List.nodup_cons.mp hnd).2 h1

theorem key_mem_of_entry {v : Board} {p : Box × Value} (h : p ∈ v) :
    p.1 ∈ keysOf v := by
  simp only [keysOf, List.mem_map]
  exact ⟨p, h, rfl⟩

/-!
## Single-character removal, empty boxes, digit-only boards
-/

theorem removeStr_singleton (d : Char) (s : List Char) :
    removeStr [d] s = s.filter (fun x => x ≠ d) := by
  induction s with
  | nil => simp [removeStr.eq_1]
  | cons x s ih =>
    by_cases hx : x = d
    · subst hx
      rw [removeStr_cons_some (show dropPre [x] (x :: s) = some s by simp [dropPre])
        (by simp), ih]
      simp
    · rw [removeStr_cons_none (show dropPre [d] (x :: s) = none by simp [dropPre, hx])]
      simp [ih, hx]

theorem removeStr_self_nil {d : Char} {s : List Char} (hs : s.Sublist [d]) :
    removeStr [d] s = [] := by
  rcases List.sublist_singleton.mp hs with h | h <;> subst h
  · simp [removeStr.eq_1]
  · rw [removeStr_singleton]
    simp

theorem anyEmpty_of_mem {v : Board} {b : Box} (hb : b ∈ keysOf v)
    (he : bGet v b = []) : anyEmpty v = true := by
  have hmem : b ∈ (keysOf v).filter (fun b => (bGet v b).length == 0) :=
    List.mem_filter.mpr ⟨hb, by simp [he]⟩
  unfold anyEmpty
  rcases hf : (keysOf v).filter (fun b => (bGet v b).length == 0) with _ | ⟨c, rest⟩
  · rw [hf] at hmem; simp at hmem
  · simp

theorem ne_nil_of_anyEmpty_false {v : Board} {b : Box} (h : anyEmpty v = false)
    (hb : b ∈ keysOf v) : bGet v b ≠ [] := by
  intro he
  rw [anyEmpty_of_mem hb he] at h
  simp at h

/-- All candidate characters on the board are digits `1`–`9`. -/
def DigitsOnly (v : Board) : Prop := ∀ p ∈ v, ∀ c ∈ p.2, c ∈ digits

theorem shrinks_digitsOnly {w v : Board} (h : Shrinks w v) (hd : DigitsOnly v) :
    DigitsOnly w := by
  induction h with
  | nil => intro p hp; simp at hp
  | @cons q p l1 l2 hq h ih =>
    intro x hx c hc
    rcases List.mem_cons.mp hx with h1 | h1
    · subst h1
      exact hd p (List.mem_cons_self _ _) c (hq.2.subset hc)
    · exact ih (fun r hr => hd r (List.mem_cons_of_mem _ hr)) x h1 c hc

theorem bGet_digitsOnly {v : Board} {k : Box} {c : Char} (hd : DigitsOnly v)
    (hc : c ∈ bGet v k) : c ∈ digits := by
  induction v with
  | nil => simp [bGet] at hc
  | cons p ps ih =>
    simp only [bGet] at hc
    split at hc
    · exact hd p (List.mem_cons_self _ _) c hc
    · exact ih (fun q hq => hd q (List.mem_cons_of_mem _ hq)) hc

theorem bSet_digitsOnly {v : Board} {k : Box} {x : Value} (hd : DigitsOnly v)
    (hx : ∀ c ∈ x, c ∈ digits) : DigitsOnly (bSet v k x) := by
  induction v with
  | nil => intro p hp; simp [bSet] at hp
  | cons p ps ih =>
    intro q hq c hc
    simp only [bSet] at hq
    split at hq
    · rcases List.mem_cons.mp hq with h1 | h1
      · subst h1; exact hx c hc
      · exact hd q (List.mem_cons_of_mem _ h1) c hc
    · rcases List.mem_cons.mp hq with h1 | h1
      · subst h1; exact hd q (List.mem_cons_self _ _) c hc
      · exact ih (fun r hr => hd r (List.mem_cons_of_mem _ hr)) q h1 c hc

theorem foldl_split {α β : Type} (f : β → α → β) (st : β) {l l1 l2 : List α}
    {a : α} (h : l = l1 ++ a :: l2) :
    l.foldl f st = l2.foldl f (f (l1.foldl f st) a) := by
  subst h
  rw [List.foldl_append]
  rfl

/-!
## `eliminate` empties a box when two peers are solved with the same digit
-/

theorem elimPeerStep_board (digit : Value) (s2 : St) (peer : Box) :
    (elimPeerStep digit s2 peer).1 =
      bSet s2.1 peer (removeStr digit (bGet s2.1 peer)) := by
  unfold elimPeerStep
  dsimp only
  rw [assign_value_board, bSet_self]

theorem eliminate_conflict {v : Board} {l : Log} {p q : Box} {d : Char}
    (hpk : p ∈ keysOf v) (hqk : q ∈ keysOf v) (hq : q ∈ peers p)
    (hvp : bGet v p = [d]) (hvq : bGet v q = [d]) :
    (bGet (eliminate (v, l)).1 p = [] ∨ bGet (eliminate (v, l)).1 q = []) := by
  have hsolved : p ∈ (keysOf v).filter (fun box => (bGet v box).length == 1) :=
    List.mem_filter.mpr ⟨hpk, by simp [hvp]⟩
  rcases List.append_of_mem hsolved with ⟨l1, l2, hsplit⟩
  have helim : eliminate (v, l) =
      l2.foldl elimBoxStep (elimBoxStep (l1.foldl elimBoxStep (v, l)) p) := by
    unfold eliminate
    exact foldl_split _ _ hsplit
  set stMid := l1.foldl elimBoxStep (v, l) with hstMid
  have hshrMid : Shrinks stMid.1 v :=
    foldl_shrinks l1 (fun s a => elimBoxStep_shrinks s a) (v, l)
  have hkeysMid : keysOf stMid.1 = keysOf v := shrinks_keysOf hshrMid
  -- value of p when it is processed: a sublist of [d]
  have hpmid : (bGet stMid.1 p).Sublist [d] := hvp ▸ shrinks_bGet hshrMid p
  by_cases hpe : bGet stMid.1 p = []
  · -- p is already empty; it stays empty
    left
    have hshrEnd : Shrinks (eliminate (v, l)).1 stMid.1 := by
      rw [helim]
      exact shrinks_trans
        (foldl_shrinks l2 (fun s a => elimBoxStep_shrinks s a) _)
        (elimBoxStep_shrinks stMid p)
    have := shrinks_bGet hshrEnd p
    rw [hpe] at this
    exact List.sublist_nil.mp this
  · -- p still holds [d]; processing p empties q
    right
    have hpd : bGet stMid.1 p = [d] := by
      rcases List.sublist_singleton.mp hpmid with h | h
      · exact absurd h hpe
      · exact h
    -- inner fold over the peers of p, with digit [d]
    rcases List.append_of_mem hq with ⟨m1, m2, hqsplit⟩
    have hstep : elimBoxStep stMid p =
        m2.foldl (elimPeerStep (bGet stMid.1 p))
          (elimPeerStep (bGet stMid.1 p) (m1.foldl (elimPeerStep (bGet stMid.1 p)) stMid) q) := by
      unfold elimBoxStep
      exact foldl_split _ _ hqsplit
    set stMid2 := m1.foldl (elimPeerStep (bGet stMid.1 p)) stMid with hstMid2
    have hshrMid2 : Shrinks stMid2.1 stMid.1 :=
      foldl_shrinks m1 (fun s a => elimPeerStep_shrinks _ s a) stMid
    have hkeysMid2 : keysOf stMid2.1 = keysOf v := by
      rw [shrinks_keysOf hshrMid2, hkeysMid]
    -- q's value at its processing point is a sublist of [d]
    have hqmid : (bGet stMid2.1 q).Sublist [d] := by
      have h1 := shrinks_bGet (shrinks_trans hshrMid2 hshrMid) q
      rw [hvq] at h1
      exact h1
    -- after processing q, its value is []
    have hqzero : bGet (elimPeerStep (bGet stMid.1 p) stMid2 q).1 q = [] := by
      rw [elimPeerStep_board]
      rw [bGet_bSet_self _ _ (by rw [hkeysMid2]; exact hqk)]
      rw [hpd]
      exact removeStr_self_nil hqmid
    -- and it stays []
    have hshrEnd : Shrinks (eliminate (v, l)).1 (elimPeerStep (bGet stMid.1 p) stMid2 q).1 := by
      rw [helim, hstep]
      exact shrinks_trans
        (foldl_shrinks l2 (fun s a => elimBoxStep_shrinks s a) _)
        (foldl_shrinks m2 (fun s a => elimPeerStep_shrinks _ s a) _)
    have := shrinks_bGet hshrEnd q
    rw [hqzero] at this
    exact List.sublist_nil.mp this

/-- A solved-digit conflict between two peers makes the whole propagation
pipeline produce an empty box: `only_choice` and `naked_twins` never refill an
emptied box (they only shrink values). -/
theorem pipeline_conflict {v : Board} {l : Log} {p q : Box} {d : Char}
    (hpk : p ∈ keysOf v) (hqk : q ∈ keysOf v) (hq : q ∈ peers p)
    (hvp : bGet v p = [d]) (hvq : bGet v q = [d]) :
    anyEmpty (naked_twins (only_choice (eliminate (v, l)))).1 = true := by
  have hshr : Shrinks (naked_twins (only_choice (eliminate (v, l)))).1
      (eliminate (v, l)).1 :=
    shrinks_trans (naked_twins_shrinks _) (only_choice_shrinks _)
  have hkeys : keysOf (naked_twins (only_choice (eliminate (v, l)))).1 = keysOf v := by
    rw [shrinks_keysOf hshr, shrinks_keysOf (eliminate_shrinks (v, l))]
  rcases eliminate_conflict hpk hqk hq hvp hvq with he | he
  · have h2 := shrinks_bGet hshr p
    rw [he] at h2
    have hp2 : p ∈ keysOf (naked_twins (only_choice (eliminate (v, l)))).1 := by
      rw [hkeys]; exact hpk
    exact anyEmpty_of_mem hp2 (List.sublist_nil.mp h2)
  · have h2 := shrinks_bGet hshr q
    rw [he] at h2
    have hq2 : q ∈ keysOf (naked_twins (only_choice (eliminate (v, l)))).1 := by
      rw [hkeys]; exact hqk
    exact anyEmpty_of_mem hq2 (List.sublist_nil.mp h2)

/-!
## Properties of the reduction loop's results
-/

theorem reduceLoop_some_shrinks :
    ∀ (fuel : Nat) (st : St) {r : Board} {l2 : Log},
      reduceLoop fuel st = (some r, l2) → Shrinks r st.1 := by
  intro fuel
  induction fuel with
  | zero => intro st r l2 h; cases h
  | succ fuel ih =>
    intro st r l2 h
    simp only [reduceLoop] at h
    split at h
    · exact absurd h (by simp)
    · split at h
      · have hr := congrArg Prod.fst h
        simp only [Option.some.injEq] at hr
        rw [← hr]
        exact pipeline_shrinks st
      · exact shrinks_trans (ih _ h) (pipeline_shrinks st)

theorem reduce_some_shrinks {st : St} {r : Board} {l2 : Log}
    (h : reduce_puzzle st = (some r, l2)) : Shrinks r st.1 :=
  reduceLoop_some_shrinks _ st h

theorem reduceLoop_some_anyEmpty :
    ∀ (fuel : Nat) (st : St) {r : Board} {l2 : Log},
      reduceLoop fuel st = (some r, l2) → anyEmpty r = false := by
  intro fuel
  induction fuel with
  | zero => intro st r l2 h; cases h
  | succ fuel ih =>
    intro st r l2 h
    simp only [reduceLoop] at h
    split at h
    · exact absurd h (by simp)
    · split at h
      · have hr := congrArg Prod.fst h
        simp only [Option.some.injEq] at hr
        rw [← hr]
        rename_i h1 h2
        simpa using h1
      · exact ih _ h

theorem reduce_some_anyEmpty {st : St} {r : Board} {l2 : Log}
    (h : reduce_puzzle st = (some r, l2)) : anyEmpty r = false :=
  reduceLoop_some_anyEmpty _ st h

theorem filter_all_of_length {α : Type} {p : α → Bool} {l : List α}
    (h : (l.filter p).length = l.length) : ∀ a ∈ l, p a = true := by
  have heq : l.filter p = l := (List.filter_sublist l).eq_of_length h
  intro a ha
  exact List.filter_eq_self.mp heq a ha

theorem solvedCount_all {v : Board} (h : solvedCount v = (keysOf v).length) :
    ∀ b ∈ keysOf v, (bGet v b).length = 1 := by
  intro b hb
  have := filter_all_of_length h b hb
  simpa using this

theorem all_solvedCount {v : Board} (h : ∀ b ∈ keysOf v, (bGet v b).length = 1) :
    solvedCount v = (keysOf v).length := by
  unfold solvedCount
  rw [List.filter_eq_self.mpr (fun b hb => by simp [h b hb])]

theorem shrinks_eq_of_len1 {w v : Board} (h : Shrinks w v)
    (hw : ∀ p ∈ w, p.2.length = 1) (hv : ∀ p ∈ v, p.2.length = 1) : w = v := by
  induction h with
  | nil => rfl
  | @cons q p l1 l2 hq hrec ih =>
    have h1 : q.2 = p.2 := hq.2.eq_of_length
      (by rw [hw q (List.mem_cons_self _ _), hv p (List.mem_cons_self _ _)])
    have hqp : q = p := by
      have hk := hq.1
      cases q; cases p
      simp only at hk h1
      simp [hk, h1]
    rw [hqp, ih (fun x hx => hw x (List.mem_cons_of_mem _ hx))
      (fun x hx => hv x (List.mem_cons_of_mem _ hx))]

theorem pair_ne_some {x : Board} {l1 l2 : Log}
    (h : ((none : Option Board), l1) = (some x, l2)) : False := by
  have h1 := congrArg Prod.fst h
  simp at h1

theorem some_pair_inj {a b : Board} {l1 l2 : Log}
    (h : ((some a : Option Board), l1) = (some b, l2)) : a = b ∧ l1 = l2 := by
  have h1 := congrArg Prod.fst h
  have h2 := congrArg Prod.snd h
  simp only [Option.some.injEq] at h1 h2
  exact ⟨h1, h2⟩

theorem entry_len1_of_key {v : Board} (hnd : (keysOf v).Nodup)
    (h : ∀ b ∈ keysOf v, (bGet v b).length = 1) : ∀ p ∈ v, p.2.length = 1 := by
  intro p hp
  have hk := key_mem_of_entry hp
  have h2 := h p.1 hk
  have h3 : bGet v p.1 = p.2 := bGet_of_mem hnd (show (p.1, p.2) ∈ v by
    cases p
    exact hp)
  rw [h3] at h2
  exact h2

/-- If the reduction loop returns a fully solved board, then no two distinct
peers hold the same digit in it: on such a board the stalled last iteration
replays `eliminate` on the final board itself, and a conflict would have
emptied a box. -/
theorem reduceLoop_some_noconflict :
    ∀ (fuel : Nat) (st : St) {r : Board} {l2 : Log},
      (keysOf st.1).Nodup →
      reduceLoop fuel st = (some r, l2) →
      (∀ b ∈ keysOf r, (bGet r b).length = 1) →
      ∀ p q : Box, ∀ d : Char, p ∈ keysOf r → q ∈ keysOf r → q ∈ peers p →
        bGet r p = [d] → bGet r q = [d] → False := by
  intro fuel
  induction fuel with
  | zero => intro st r l2 _ h; cases h
  | succ fuel ih =>
    intro st r l2 hnd h hall p q d hpk hqk hq hvp hvq
    simp only [reduceLoop] at h
    split at h
    · exact absurd h (by simp)
    · split at h
      · -- stalled: the final board equals the board entering the iteration
        rename_i h1 h2
        have hr : (naked_twins (only_choice (eliminate st))).1 = r := by
          have := congrArg Prod.fst h
          simpa using this
        have hshr : Shrinks r st.1 := by
          rw [← hr]; exact pipeline_shrinks st
        have hkeys : keysOf r = keysOf st.1 := shrinks_keysOf hshr
        have hcount : solvedCount st.1 = solvedCount r := by rw [h2, hr]
        have hallst : ∀ b ∈ keysOf st.1, (bGet st.1 b).length = 1 := by
          apply solvedCount_all
          rw [hcount, all_solvedCount hall, hkeys]
        have hndr : (keysOf r).Nodup := by rw [hkeys]; exact hnd
        have hreq : r = st.1 :=
          shrinks_eq_of_len1 hshr (entry_len1_of_key hndr hall)
            (entry_len1_of_key hnd hallst)
        -- replaying the pipeline on r itself must empty a box
        have hpk2 : p ∈ keysOf st.1 := by rw [← hkeys]; exact hpk
        have hqk2 : q ∈ keysOf st.1 := by rw [← hkeys]; exact hqk
        have hvp2 : bGet st.1 p = [d] := by rw [← hreq]; exact hvp
        have hvq2 : bGet st.1 q = [d] := by rw [← hreq]; exact hvq
        have hconf : anyEmpty (naked_twins (only_choice (eliminate (st.1, st.2)))).1 = true :=
          pipeline_conflict hpk2 hqk2 hq hvp2 hvq2
        exact h1 hconf
      · exact ih _ (by rw [shrinks_keysOf (pipeline_shrinks st)]; exact hnd) h hall
          p q d hpk hqk hq hvp hvq

theorem reduce_some_noconflict {st : St} {r : Board} {l2 : Log}
    (hnd : (keysOf st.1).Nodup) (h : reduce_puzzle st = (some r, l2))
    (hall : ∀ b ∈ keysOf r, (bGet r b).length = 1) :
    ∀ p q : Box, ∀ d : Char, p ∈ keysOf r → q ∈ keysOf r → q ∈ peers p →
      bGet r p = [d] → bGet r q = [d] → False :=
  reduceLoop_some_noconflict _ st hnd h hall

/-!
## The selection loop of `search`
-/

theorem pick_foldl_some {v : Board} :
    ∀ (l : List (Box × Value)) (b : Box),
      l.foldl (pickStep v) (some b) ≠ none := by
  intro l
  induction l with
  | nil => intro b h; cases h
  | cons p l ih =>
    intro b
    simp only [List.foldl_cons]
    unfold pickStep
    split
    · dsimp only [Option.getD_some]
      split
      · exact ih p.1
      · exact ih b
    · exact ih b

theorem pickLeast_none {v : Board} (h : pickLeast v = none) :
    ∀ p ∈ v, p.2.length ≤ 1 := by
  suffices hgen : ∀ l : List (Box × Value),
      l.foldl (pickStep v) none = none → ∀ p ∈ l, p.2.length ≤ 1 by
    exact hgen v h
  intro l
  induction l with
  | nil => intro _ p hp; cases hp
  | cons q l ih =>
    intro hfold p hp
    simp only [List.foldl_cons] at hfold
    by_cases hq : q.2.length > 1
    · exfalso
      have hsome : ∃ b, pickStep v none q = some b := by
        unfold pickStep
        rw [if_pos hq]
        dsimp only [Option.getD_none]
        split
        · exact ⟨_, rfl⟩
        · exact ⟨_, rfl⟩
      rcases hsome with ⟨b, hb⟩
      rw [hb] at hfold
      exact pick_foldl_some l b hfold
    · have hstep : pickStep v none q = none := by
        unfold pickStep
        rw [if_neg hq]
      rw [hstep] at hfold
      rcases List.mem_cons.mp hp with h1 | h1
      · subst h1; omega
      · exact ih hfold p h1

/-!
## Results of the search
-/

theorem tryValsWith_some {f : St → Option Board × Log} {r : Board} {b : Box} :
    ∀ {cs : List Char} {log l2 : Log} {res : Board},
      tryValsWith f r b cs log = (some res, l2) →
      ∃ c ∈ cs, ∃ log0, f (assign_value (bSet r b [c], log0) b [c]) = (some res, l2) := by
  intro cs
  induction cs with
  | nil => intro log l2 res h; cases h
  | cons c cs ih =>
    intro log l2 res h
    simp only [tryValsWith] at h
    rcases hf : f (assign_value (bSet r b [c], log) b [c]) with ⟨o, log2⟩
    rw [hf] at h
    cases o with
    | some x =>
      refine ⟨c, List.mem_cons_self _ _, log, ?_⟩
      rw [hf]
      exact h
    | none =>
      obtain ⟨c2, hc2, log0, hres⟩ := ih h
      exact ⟨c2, List.mem_cons_of_mem _ hc2, log0, hres⟩

/-- Whatever board a successful `searchF` returns: it keeps the keys of its
input, holds only digit candidates, every box is solved to a single digit,
and no two distinct peers hold the same digit. -/
theorem searchF_some_solved :
    ∀ (fuel : Nat) (st : St) {r : Board} {l2 : Log},
      (keysOf st.1).Nodup → DigitsOnly st.1 →
      searchF fuel st = (some r, l2) →
      keysOf r = keysOf st.1 ∧ DigitsOnly r ∧
      (∀ b ∈ keysOf r, ∃ d, bGet r b = [d]) ∧
      (∀ p q : Box, ∀ d : Char, p ∈ keysOf r → q ∈ keysOf r → q ∈ peers p →
        bGet r p = [d] → bGet r q = [d] → False) := by
  intro fuel
  induction fuel with
  | zero =>
    intro st r l2 _ _ h
    rw [searchF_zero] at h
    exact (pair_ne_some h).elim
  | succ fuel ih =>
    intro st r l2 hnd hdig h
    rw [searchF_succ] at h
    unfold searchStep at h
    split at h
    · exact (pair_ne_some h).elim
    · rename_i r0 log hred
      have hshr : Shrinks r0 st.1 := reduce_some_shrinks hred
      have hkeys0 : keysOf r0 = keysOf st.1 := shrinks_keysOf hshr
      have hdig0 : DigitsOnly r0 := shrinks_digitsOnly hshr hdig
      split at h
      · rename_i hpick
        have hr : r0 = r := (some_pair_inj h).1
        subst hr
        have hempty : anyEmpty r0 = false := reduce_some_anyEmpty hred
        have hall : ∀ b ∈ keysOf r0, (bGet r0 b).length = 1 := by
          intro b hb
          have hle : (bGet r0 b).length ≤ 1 := by
            have := pickLeast_none hpick (b, bGet r0 b) (mem_of_key hb)
            simpa using this
          have hne : bGet r0 b ≠ [] := ne_nil_of_anyEmpty_false hempty hb
          have : (bGet r0 b).length ≠ 0 := by
            intro hz
            exact hne (List.length_eq_zero.mp hz)
          omega
        refine ⟨hkeys0, hdig0, ?_, ?_⟩
        · intro b hb
          rcases List.length_eq_one.mp (hall b hb) with ⟨d, hd⟩
          exact ⟨d, hd⟩
        · exact reduce_some_noconflict hnd hred hall
      · rename_i b hpick
        obtain ⟨c, hc, log0, hres⟩ := tryValsWith_some h
        have hboard : (assign_value (bSet r0 b [c], log0) b [c]).1 = bSet r0 b [c] := by
          rw [assign_value_board]
          exact bSet_bSet_same _ _ _ _
        have hnd1 : (keysOf (assign_value (bSet r0 b [c], log0) b [c]).1).Nodup := by
          rw [hboard, keysOf_bSet, hkeys0]
          exact hnd
        have hdig1 : DigitsOnly (assign_value (bSet r0 b [c], log0) b [c]).1 := by
          rw [hboard]
          exact bSet_digitsOnly hdig0 (fun x hx => by
            rcases List.mem_singleton.mp hx with rfl
            exact bGet_digitsOnly hdig0 hc)
        obtain ⟨hk2, hd2, hs2, hc2⟩ := ih _ hnd1 hdig1 hres
        refine ⟨?_, hd2, hs2, hc2⟩
        rw [hk2, hboard, keysOf_bSet, hkeys0]

/-- If the input board has a solved-digit conflict between two peers, the
reduction loop fails on its first iteration. -/
theorem reduce_conflict {v : Board} {l : Log} {p q : Box} {d : Char}
    (hpk : p ∈ keysOf v) (hqk : q ∈ keysOf v) (hq : q ∈ peers p)
    (hvp : bGet v p = [d]) (hvq : bGet v q = [d]) :
    (reduce_puzzle (v, l)).1 = none := by
  rw [reduce_puzzle_eq]
  simp only [pipeline_conflict hpk hqk hq hvp hvq, if_true]


/-!
## The initialisation phase: `grid_values` and the head of `solve`
-/

theorem map_fst_zip_take : ∀ (bs : List Box) (g : List Char),
    (bs.zip g).map Prod.fst = bs.take g.length := by
  intro bs
  induction bs with
  | nil => intro g; simp
  | cons b bs ih =>
    intro g
    cases g with
    | nil => simp
    | cons c g => simp [ih g]

theorem keysOf_gridBoard (grid : List Char) :
    keysOf (gridBoard grid) = boxes.take grid.length := by
  unfold gridBoard keysOf
  rw [List.map_map]
  have hcomp : (Prod.fst ∘ fun (t : Box × Char) =>
      if t.2 = '.' then (t.1, digits) else (t.1, [t.2])) = Prod.fst := by
    funext t
    by_cases hc : t.2 = '.' <;> simp [hc]
  rw [hcomp]
  exact map_fst_zip_take boxes grid

theorem keysOf_gridBoard_nodup (grid : List Char) :
    (keysOf (gridBoard grid)).Nodup := by
  rw [keysOf_gridBoard]
  exact (List.take_sublist _ _).nodup boxes_nodup

theorem keysOf_gridBoard_of_length (grid : List Char) (h : grid.length = 81) :
    keysOf (gridBoard grid) = boxes := by
  rw [keysOf_gridBoard, h, ← boxes_length]
  exact List.take_length _

theorem gridBoard_digitsOnly {grid : List Char}
    (hc : ∀ c ∈ grid, c = '.' ∨ c ∈ digits) : DigitsOnly (gridBoard grid) := by
  unfold gridBoard
  suffices hgen : ∀ (bs : List Box) (g : List Char), (∀ c ∈ g, c = '.' ∨ c ∈ digits) →
      DigitsOnly ((bs.zip g).map
        (fun t => if t.2 = '.' then (t.1, digits) else (t.1, [t.2]))) from
    hgen boxes grid hc
  intro bs
  induction bs with
  | nil => intro g _ p hp; simp at hp
  | cons b bs ih =>
    intro g hg p hp
    cases g with
    | nil => simp at hp
    | cons c g =>
      simp only [List.zip_cons_cons, List.map_cons, List.mem_cons] at hp
      rcases hp with hp | hp
      · subst hp
        by_cases hc2 : c = '.'
        · intro x hx
          simp only [hc2, if_pos rfl] at hx
          exact hx
        · intro x hx
          simp only [if_neg hc2] at hx
          rcases hg c (List.mem_cons_self _ _) with h1 | h1
          · exact absurd h1 hc2
          · rcases List.mem_singleton.mp hx with rfl
            exact h1
      · exact ih g (fun x hx => hg x (List.mem_cons_of_mem _ hx)) p hp

theorem assign_fold_board :
    ∀ (l : List (Box × Value)) (st : St),
      (∀ p ∈ l, bGet st.1 p.1 = p.2) →
      (l.foldl (fun acc p => assign_value acc p.1 p.2) st).1 = st.1 := by
  intro l
  induction l with
  | nil => intro st _; rfl
  | cons p l ih =>
    intro st h
    simp only [List.foldl_cons]
    have hb : (assign_value st p.1 p.2).1 = st.1 := by
      rw [assign_value_board, ← h p (List.mem_cons_self _ _), bSet_self]
    have hrest : ∀ q ∈ l, bGet (assign_value st p.1 p.2).1 q.1 = q.2 := by
      intro q hq
      rw [hb]
      exact h q (List.mem_cons_of_mem _ hq)
    rw [ih _ hrest, hb]

theorem entries_self_bGet {v : Board} (hnd : (keysOf v).Nodup) :
    ∀ p ∈ v, bGet v p.1 = p.2 := by
  intro p hp
  exact bGet_of_mem hnd (show (p.1, p.2) ∈ v by cases p; exact hp)

theorem grid_values_board (grid : List Char) (log : Log) :
    (grid_values grid log).1 = gridBoard grid := by
  unfold grid_values
  exact assign_fold_board _ _ (entries_self_bGet (keysOf_gridBoard_nodup grid))

/-- `solve` is `searchF` on the `grid_values` board with some log. -/
theorem solve_eq_searchF (grid : List Char) (log : Log) :
    ∃ l2 : Log, solve grid log =
      searchF (totalLen (gridBoard grid) + 1) (gridBoard grid, l2) := by
  have h1 : (grid_values grid log).1 = gridBoard grid := grid_values_board grid log
  have h2 : ((grid_values grid log).1.foldl
      (fun acc p => assign_value acc p.1 p.2) (grid_values grid log)).1 =
      gridBoard grid := by
    rw [assign_fold_board _ _ ?_, h1]
    rw [h1]
    exact entries_self_bGet (keysOf_gridBoard_nodup grid)
  refine ⟨((grid_values grid log).1.foldl
      (fun acc p => assign_value acc p.1 p.2) (grid_values grid log)).2, ?_⟩
  show searchF (totalLen ((grid_values grid log).1.foldl
      (fun acc p => assign_value acc p.1 p.2) (grid_values grid log)).1 + 1)
      ((grid_values grid log).1.foldl
        (fun acc p => assign_value acc p.1 p.2) (grid_values grid log)) = _
  rw [show ((grid_values grid log).1.foldl
      (fun acc p => assign_value acc p.1 p.2) (grid_values grid log)) =
      (gridBoard grid, ((grid_values grid log).1.foldl
        (fun acc p => assign_value acc p.1 p.2) (grid_values grid log)).2) from by
    rw [← h2]]


/-!
## A solved conflict-free board has each digit exactly once per unit
-/

theorem digits_nodup : digits.Nodup := by decide

theorem digits_length : digits.length = 9 := by decide

theorem units_count {r : Board}
    (hkeys : keysOf r = boxes)
    (hsingle : ∀ b ∈ keysOf r, ∃ d, bGet r b = [d])
    (hnc : ∀ p q : Box, ∀ d : Char, p ∈ keysOf r → q ∈ keysOf r → q ∈ peers p →
      bGet r p = [d] → bGet r q = [d] → False)
    (hdig : DigitsOnly r) :
    ∀ u ∈ unitlist, ∀ d ∈ digits,
      (u.filter (fun b => bGet r b == [d])).length = 1 := by
  intro u hu d hd
  obtain ⟨hulen, hund⟩ := unit_length_nodup u hu
  have husub : ∀ b ∈ u, b ∈ keysOf r := fun b hb => by
    rw [hkeys]; exact unit_sub_boxes u hu b hb
  have hmapmem : ∀ x ∈ u.map (fun b => bGet r b), x ∈ digits.map (fun e => [e]) := by
    intro x hx
    rcases List.mem_map.mp hx with ⟨b, hb, hbx⟩
    rcases hsingle b (husub b hb) with ⟨e, he⟩
    have hed : e ∈ digits := bGet_digitsOnly hdig (by
      rw [he]; exact List.mem_singleton.mpr rfl)
    exact List.mem_map.mpr ⟨e, hed, by rw [← hbx, he]⟩
  have hmnd : (u.map (fun b => bGet r b)).Nodup := by
    apply List.Nodup.map_on ?_ hund
    intro b1 hb1 b2 hb2 heq
    by_contra hne
    rcases hsingle b1 (husub b1 hb1) with ⟨e, he⟩
    have he2 : bGet r b2 = [e] := by rw [← heq, he]
    exact hnc b1 b2 e (husub b1 hb1) (husub b2 hb2)
      (peers_of_unit hu hb1 hb2 (fun h => hne h.symm)) he he2
  have hsub : (u.map (fun b => bGet r b)).Subperm (digits.map (fun e => [e])) :=
    List.subperm_of_subset hmnd hmapmem
  have hperm : (u.map (fun b => bGet r b)).Perm (digits.map (fun e => [e])) :=
    hsub.perm_of_length_le (by simp [hulen, digits_length])
  have hcount : (u.map (fun b => bGet r b)).countP (fun x => x == [d]) = 1 := by
    rw [hperm.countP_eq]
    exact (by decide :
      ∀ e ∈ digits, ((digits.map (fun e2 => [e2])).countP (fun x => x == [e])) = 1) d hd
  calc (u.filter (fun b => bGet r b == [d])).length
      = u.countP (fun b => bGet r b == [d]) := (List.countP_eq_length_filter _ _).symm
    _ = (u.map (fun b => bGet r b)).countP (fun x => x == [d]) := by
        rw [List.countP_map]
        rfl
    _ = 1 := hcount


/-!
## An already-solved valid board is a fixed point of the reduction loop
-/

/-- Decidable description of a fully solved, valid diagonal-sudoku board:
exactly the 81 boxes as keys, every candidate string of length one, and every
unit holding each digit exactly once. -/
def validSolved (v : Board) : Bool :=
  (keysOf v == boxes) &&
  v.all (fun p => p.2.length == 1) &&
  unitlist.all (fun u => digits.all (fun d =>
    (u.filter (fun b => bGet v b == [d])).length == 1))

theorem validSolved_keys {v : Board} (h : validSolved v = true) :
    keysOf v = boxes := by
  unfold validSolved at h
  simp only [Bool.and_eq_true, beq_iff_eq] at h
  exact h.1.1

theorem validSolved_len1 {v : Board} (h : validSolved v = true) :
    ∀ p ∈ v, p.2.length = 1 := by
  unfold validSolved at h
  simp only [Bool.and_eq_true, List.all_eq_true, beq_iff_eq] at h
  intro p hp
  exact h.1.2 p hp

theorem validSolved_count {v : Board} (h : validSolved v = true) :
    ∀ u ∈ unitlist, ∀ d ∈ digits,
      (u.filter (fun b => bGet v b == [d])).length = 1 := by
  unfold validSolved at h
  simp only [Bool.and_eq_true, List.all_eq_true, beq_iff_eq] at h
  intro u hu d hd
  exact h.2 u hu d hd

theorem validSolved_bGet_len1 {v : Board} (h : validSolved v = true) :
    ∀ b ∈ keysOf v, (bGet v b).length = 1 := by
  intro b hb
  have h2 := validSolved_len1 h (b, bGet v b) (mem_of_key hb)
  simpa using h2

/-- On a valid solved board, every box of every unit holds a digit singleton
(9 distinct digit singletons fill the 9 boxes of the unit). -/
theorem validSolved_vals_digit {v : Board} (h : validSolved v = true) :
    ∀ u ∈ unitlist, ∀ b ∈ u, ∃ d ∈ digits, bGet v b = [d] := by
  intro u hu b hb
  have hsub2 : ∀ d ∈ digits, ∃ b2 ∈ u, bGet v b2 = [d] := by
    intro d hd
    have hc := validSolved_count h u hu d hd
    have hpos : 0 < u.countP (fun b2 => bGet v b2 == [d]) := by
      rw [List.countP_eq_length_filter, hc]
      omega
    obtain ⟨b2, hb2, hp⟩ := List.countP_pos.mp hpos
    exact ⟨b2, hb2, by simpa using hp⟩
  have hdsub : (digits.map fun e => [e]) ⊆ u.map (fun b2 => bGet v b2) := by
    intro x hx
    rcases List.mem_map.mp hx with ⟨d, hd, rfl⟩
    obtain ⟨b2, hb2, hbv⟩ := hsub2 d hd
    exact List.mem_map.mpr ⟨b2, hb2, hbv⟩
  have hdnd : (digits.map fun e => [e]).Nodup := by decide
  have hsubperm := List.subperm_of_subset hdnd hdsub
  obtain ⟨hulen, hund⟩ := unit_length_nodup u hu
  have hperm := hsubperm.perm_of_length_le (by simp [hulen, digits_length])
  have hvx : bGet v b ∈ digits.map (fun e => [e]) :=
    hperm.symm.subset (List.mem_map.mpr ⟨b, hb, rfl⟩)
  rcases List.mem_map.mp hvx with ⟨d, hd, hdx⟩
  exact ⟨d, hd, hdx.symm⟩

theorem validSolved_peers_ne {v : Board} (h : validSolved v = true) :
    ∀ p q : Box, p ∈ boxes → q ∈ peers p → bGet v q ≠ bGet v p := by
  intro p q hp hq heq
  obtain ⟨hne, u, hu, hpu, hqu⟩ := mem_peers.mp hq
  obtain ⟨d, hd, hpd⟩ := validSolved_vals_digit h u hu p hpu
  have hqd : bGet v q = [d] := by rw [heq, hpd]
  have hc := validSolved_count h u hu d hd
  rcases List.length_eq_one.mp hc with ⟨b0, hb0⟩
  have hpf : p ∈ u.filter (fun b => bGet v b == [d]) :=
    List.mem_filter.mpr ⟨hpu, by simp [hpd]⟩
  have hqf : q ∈ u.filter (fun b => bGet v b == [d]) :=
    List.mem_filter.mpr ⟨hqu, by simp [hqd]⟩
  rw [hb0] at hpf hqf
  have hp0 := List.mem_singleton.mp hpf
  have hq0 := List.mem_singleton.mp hqf
  exact hne (by rw [hp0, hq0])

theorem foldl_board_id {α : Type} {f : St → α → St} {v : Board} :
    ∀ (l : List α), (∀ s2 a, a ∈ l → s2.1 = v → (f s2 a).1 = v) →
      ∀ (s : St), s.1 = v → (l.foldl f s).1 = v := by
  intro l
  induction l with
  | nil => intro _ s hs; exact hs
  | cons a l ih =>
    intro hf s hs
    simp only [List.foldl_cons]
    exact ih (fun s2 b hb => hf s2 b (List.mem_cons_of_mem _ hb)) _
      (hf s a (List.mem_cons_self _ _) hs)

theorem eliminate_id {v : Board} (hkeys : keysOf v = boxes)
    (hdist : ∀ p q : Box, p ∈ boxes → q ∈ peers p → bGet v q ≠ bGet v p)
    (hlen1 : ∀ b ∈ keysOf v, (bGet v b).length = 1) :
    ∀ (st : St), st.1 = v → (eliminate st).1 = v := by
  intro st hst
  unfold eliminate
  dsimp only
  apply foldl_board_id _ ?_ st hst
  intro s2 box hbox hs2
  unfold elimBoxStep
  apply foldl_board_id _ ?_ s2 hs2
  intro s3 peer hpeer hs3
  rw [elimPeerStep_board, hs3, hs2]
  rw [hst] at hbox
  have hboxk : box ∈ keysOf v := List.mem_of_mem_filter hbox
  have hboxb : box ∈ boxes := by rw [← hkeys]; exact hboxk
  rcases List.length_eq_one.mp (hlen1 box hboxk) with ⟨dbox, hdbox⟩
  have hpeerb : peer ∈ boxes := by
    rcases mem_peers.mp hpeer with ⟨_, u, hu, h1, h2⟩
    exact unit_sub_boxes u hu peer h2
  have hpeerk : peer ∈ keysOf v := by rw [hkeys]; exact hpeerb
  rcases List.length_eq_one.mp (hlen1 peer hpeerk) with ⟨e, he⟩
  have hne : e ≠ dbox := by
    intro hcontra
    apply hdist box peer hboxb hpeer
    rw [he, hdbox, hcontra]
  have hrm : removeStr (bGet v box) (bGet v peer) = bGet v peer := by
    rw [hdbox, he, removeStr_singleton]
    simp [hne]
  rw [hrm, bSet_self]

theorem only_choice_id {v : Board} (hkeys : keysOf v = boxes)
    (hcount : ∀ u ∈ unitlist, ∀ d ∈ digits,
      (u.filter (fun b => bGet v b == [d])).length = 1)
    (hsingle : ∀ u ∈ unitlist, ∀ b ∈ u, ∃ d ∈ digits, bGet v b = [d]) :
    ∀ (st : St), st.1 = v → (only_choice st).1 = v := by
  intro st hst
  unfold only_choice
  apply foldl_board_id _ ?_ st hst
  intro s2 unit hunit hs2
  apply foldl_board_id _ ?_ s2 hs2
  intro s3 digit hdigit hs3
  unfold ocDigitStep
  dsimp only
  rw [hs3]
  have hfe : unit.filter (fun b => (bGet v b).contains digit) =
      unit.filter (fun b => bGet v b == [digit]) := by
    apply List.filter_congr
    intro b hb
    obtain ⟨e, he, hbe⟩ := hsingle unit hunit b hb
    rw [hbe]
    by_cases hed : e = digit
    · subst hed; simp
    · have h1 : decide (digit = e) = false :=
        decide_eq_false (fun hcontra => hed hcontra.symm)
      have h2 : (e == digit) = false := beq_eq_false_iff_ne.mpr hed
      show [e].contains digit = ([e] == [digit])
      simp [h1, h2, List.contains, hed]
  rw [hfe]
  rcases List.length_eq_one.mp (hcount unit hunit digit hdigit) with ⟨b0, hb0⟩
  rw [hb0]
  dsimp only
  rw [assign_value_board]
  have hb0v : bGet v b0 = [digit] := by
    have hmem : b0 ∈ unit.filter (fun b => bGet v b == [digit]) := by
      rw [hb0]
      exact List.mem_singleton.mpr rfl
    simpa using (List.mem_filter.mp hmem).2
  show bSet (bSet v b0 [digit]) b0 [digit] = v
  rw [bSet_bSet_same, ← hb0v, bSet_self]

theorem naked_twins_id {v : Board} (hkeys : keysOf v = boxes)
    (hlen1 : ∀ b ∈ keysOf v, (bGet v b).length = 1) :
    ∀ (st : St), st.1 = v → (naked_twins st).1 = v := by
  intro st hst
  unfold naked_twins
  apply foldl_board_id _ ?_ st hst
  intro s2 unit hunit hs2
  unfold nt_unit
  dsimp only
  have hpairs : unit.filter (fun box => (bGet s2.1 box).length == 2) = [] := by
    rw [List.filter_eq_nil]
    intro b hb
    have hb1 : (bGet v b).length = 1 := hlen1 b (by
      rw [hkeys]
      exact unit_sub_boxes unit hunit b hb)
    rw [hs2]
    simp [hb1]
  rw [hpairs]
  exact hs2

theorem anyEmpty_false_of_len1 {v : Board}
    (hlen1 : ∀ b ∈ keysOf v, (bGet v b).length = 1) : anyEmpty v = false := by
  unfold anyEmpty
  rw [show (keysOf v).filter (fun b => (bGet v b).length == 0) = [] from by
    rw [List.filter_eq_nil]
    intro b hb
    simp [hlen1 b hb]]
  rfl

/-- Running the reduction loop on a valid fully solved board returns that
board unchanged. -/
theorem reduce_puzzle_solved {v : Board} {l : Log} (h : validSolved v = true) :
    (reduce_puzzle (v, l)).1 = some v := by
  have hkeys := validSolved_keys h
  have hlen1 := validSolved_bGet_len1 h
  have hdist := validSolved_peers_ne h
  have hsingle := validSolved_vals_digit h
  have hcount := validSolved_count h
  have he : (eliminate (v, l)).1 = v := eliminate_id hkeys hdist hlen1 (v, l) rfl
  have ho : (only_choice (eliminate (v, l))).1 = v :=
    only_choice_id hkeys hcount hsingle _ he
  have hn : (naked_twins (only_choice (eliminate (v, l)))).1 = v :=
    naked_twins_id hkeys hlen1 _ ho
  rw [reduce_puzzle_eq]
  dsimp only
  rw [hn, anyEmpty_false_of_len1 hlen1]
  simp

theorem pickLeast_none_of_all {v : Board} (h : ∀ p ∈ v, p.2.length ≤ 1) :
    pickLeast v = none := by
  suffices hgen : ∀ l : List (Box × Value), (∀ p ∈ l, p.2.length ≤ 1) →
      l.foldl (pickStep v) none = none from hgen v h
  intro l
  induction l with
  | nil => intro _; rfl
  | cons q l ih =>
    intro hl
    simp only [List.foldl_cons]
    have hstep : pickStep v none q = none := by
      unfold pickStep
      rw [if_neg (by have := hl q (List.mem_cons_self _ _); omega)]
    rw [hstep]
    exact ih (fun p hp => hl p (List.mem_cons_of_mem _ hp))

/-- `solve` on a grid that is already a complete valid diagonal solution
returns exactly that board. -/
theorem solve_solved {grid : List Char} (log : Log)
    (h : validSolved (gridBoard grid) = true) :
    (solve grid log).1 = some (gridBoard grid) := by
  obtain ⟨l2, hs⟩ := solve_eq_searchF grid log
  rw [hs, searchF_succ]
  unfold searchStep
  have hred1 : (reduce_puzzle (gridBoard grid, l2)).1 = some (gridBoard grid) :=
    reduce_puzzle_solved h
  have hpick : pickLeast (gridBoard grid) = none := by
    apply pickLeast_none_of_all
    intro p hp
    rw [validSolved_len1 h p hp]
  rcases hredv : reduce_puzzle (gridBoard grid, l2) with ⟨o, logr⟩
  rw [hredv] at hred1
  simp only at hred1
  subst hred1
  dsimp only
  rw [hpick]


/-!
## Concrete boards used by the claim witnesses
-/

/-- A complete, valid diagonal-sudoku solution (the solution of the grid in
the source's `__main__` block). -/
def solvedGrid : List Char :=
  "267945381853716249491823576576438192384192657129657438642379815935281764718564923".toList

/-- `gridBoard solvedGrid`, written out as a literal association list (the
literal keeps kernel evaluation shallow in the witnesses). -/
def solvedBoard : Board := [
  (['A', '1'], ['2']),
  (['A', '2'], ['6']),
  (['A', '3'], ['7']),
  (['A', '4'], ['9']),
  (['A', '5'], ['4']),
  (['A', '6'], ['5']),
  (['A', '7'], ['3']),
  (['A', '8'], ['8']),
  (['A', '9'], ['1']),
  (['B', '1'], ['8']),
  (['B', '2'], ['5']),
  (['B', '3'], ['3']),
  (['B', '4'], ['7']),
  (['B', '5'], ['1']),
  (['B', '6'], ['6']),
  (['B', '7'], ['2']),
  (['B', '8'], ['4']),
  (['B', '9'], ['9']),
  (['C', '1'], ['4']),
  (['C', '2'], ['9']),
  (['C', '3'], ['1']),
  (['C', '4'], ['8']),
  (['C', '5'], ['2']),
  (['C', '6'], ['3']),
  (['C', '7'], ['5']),
  (['C', '8'], ['7']),
  (['C', '9'], ['6']),
  (['D', '1'], ['5']),
  (['D', '2'], ['7']),
  (['D', '3'], ['6']),
  (['D', '4'], ['4']),
  (['D', '5'], ['3']),
  (['D', '6'], ['8']),
  (['D', '7'], ['1']),
  (['D', '8'], ['9']),
  (['D', '9'], ['2']),
  (['E', '1'], ['3']),
  (['E', '2'], ['8']),
  (['E', '3'], ['4']),
  (['E', '4'], ['1']),
  (['E', '5'], ['9']),
  (['E', '6'], ['2']),
  (['E', '7'], ['6']),
  (['E', '8'], ['5']),
  (['E', '9'], ['7']),
  (['F', '1'], ['1']),
  (['F', '2'], ['2']),
  (['F', '3'], ['9']),
  (['F', '4'], ['6']),
  (['F', '5'], ['5']),
  (['F', '6'], ['7']),
  (['F', '7'], ['4']),
  (['F', '8'], ['3']),
  (['F', '9'], ['8']),
  (['G', '1'], ['6']),
  (['G', '2'], ['4']),
  (['G', '3'], ['2']),
  (['G', '4'], ['3']),
  (['G', '5'], ['7']),
  (['G', '6'], ['9']),
  (['G', '7'], ['8']),
  (['G', '8'], ['1']),
  (['G', '9'], ['5']),
  (['H', '1'], ['9']),
  (['H', '2'], ['3']),
  (['H', '3'], ['5']),
  (['H', '4'], ['2']),
  (['H', '5'], ['8']),
  (['H', '6'], ['1']),
  (['H', '7'], ['7']),
  (['H', '8'], ['6']),
  (['H', '9'], ['4']),
  (['I', '1'], ['7']),
  (['I', '2'], ['1']),
  (['I', '3'], ['8']),
  (['I', '4'], ['5']),
  (['I', '5'], ['6']),
  (['I', '6'], ['4']),
  (['I', '7'], ['9']),
  (['I', '8'], ['2']),
  (['I', '9'], ['3'])]

theorem gridBoard_solvedGrid : gridBoard solvedGrid = solvedBoard := by decide

theorem solvedBoard_valid : validSolved solvedBoard = true := by decide

theorem solvedGrid_valid : validSolved (gridBoard solvedGrid) = true := by
  rw [gridBoard_solvedGrid]
  exact solvedBoard_valid

/-!
## Claim theorems
-/

/-- **C1.** For every 81-character input over `[1-9.]`, any board returned by
`solve` (equivalently, any non-`False` result of `search`) assigns every one
of the 81 boxes a single digit `1`–`9`, and every unit of `unitlist` (9 rows,
9 columns, 9 boxes, both diagonals) contains each digit exactly once. -/
theorem C1_solve_returns_valid_solution (grid : List Char) (log l2 : Log)
    (r : Board) (hlen : grid.length = 81)
    (hchars : ∀ c ∈ grid, c = '.' ∨ c ∈ digits)
    (hsolve : solve grid log = (some r, l2)) :
    (∀ b ∈ boxes, ∃ d ∈ digits, bGet r b = [d]) ∧
    (∀ u ∈ unitlist, ∀ d ∈ digits,
      (u.filter (fun b => bGet r b == [d])).length = 1) := by
  obtain ⟨lmid, hs⟩ := solve_eq_searchF grid log
  rw [hs] at hsolve
  have hkeysg : keysOf (gridBoard grid) = boxes := keysOf_gridBoard_of_length grid hlen
  have hnd : (keysOf (gridBoard grid)).Nodup := keysOf_gridBoard_nodup grid
  have hdig : DigitsOnly (gridBoard grid) := gridBoard_digitsOnly hchars
  obtain ⟨hk, hd, hsing, hnc⟩ :=
    searchF_some_solved _ (gridBoard grid, lmid) hnd hdig hsolve
  have hkr : keysOf r = boxes := by rw [hk]; exact hkeysg
  constructor
  · intro b hb
    obtain ⟨d, hd2⟩ := hsing b (by rw [hkr]; exact hb)
    refine ⟨d, ?_, hd2⟩
    exact bGet_digitsOnly hd (by rw [hd2]; exact List.mem_singleton.mpr rfl)
  · exact units_count hkr hsing hnc hd

/-- Witness for C1: the solved example grid. -/
theorem C1_witness :
    ∃ r : Board, (solve solvedGrid []).1 = some r ∧
      ((∀ b ∈ boxes, ∃ d ∈ digits, bGet r b = [d]) ∧
       (∀ u ∈ unitlist, ∀ d ∈ digits,
         (u.filter (fun b => bGet r b == [d])).length = 1)) := by
  refine ⟨gridBoard solvedGrid, solve_solved [] solvedGrid_valid, ?_⟩
  refine C1_solve_returns_valid_solution solvedGrid [] (solve solvedGrid []).2
    (gridBoard solvedGrid) (by decide) (by decide) ?_
  have h1 := solve_solved ([] : Log) solvedGrid_valid
  calc solve solvedGrid []
      = ((solve solvedGrid []).1, (solve solvedGrid []).2) := (Prod.mk.eta).symm
    _ = (some (gridBoard solvedGrid), (solve solvedGrid []).2) := by rw [h1]

/-- **C9.** Running the reduction loop `reduce_puzzle` on a board that is
already fully solved (all 81 boxes hold a single digit and every unit holds
each digit exactly once) returns that identical board, with no candidate set
changed. -/
theorem C9_reduce_noop_on_solved (v : Board) (l : Log)
    (h : validSolved v = true) : (reduce_puzzle (v, l)).1 = some v :=
  reduce_puzzle_solved h

/-- Witness for C9: the solved example board. -/
theorem C9_witness :
    (reduce_puzzle (gridBoard solvedGrid, [])).1 = some (gridBoard solvedGrid) :=
  C9_reduce_noop_on_solved (gridBoard solvedGrid) [] solvedGrid_valid


/-- A solved-digit conflict between two peers in the initial board makes
`solve` report failure at once. -/
theorem solve_conflict {grid : List Char} (log : Log) {p q : Box} {d : Char}
    (hpk : p ∈ keysOf (gridBoard grid)) (hqk : q ∈ keysOf (gridBoard grid))
    (hq : q ∈ peers p) (hvp : bGet (gridBoard grid) p = [d])
    (hvq : bGet (gridBoard grid) q = [d]) :
    (solve grid log).1 = none := by
  obtain ⟨l2, hs⟩ := solve_eq_searchF grid log
  rw [hs, searchF_succ]
  unfold searchStep
  have hred : (reduce_puzzle (gridBoard grid, l2)).1 = none :=
    reduce_conflict hpk hqk hq hvp hvq
  rcases hredv : reduce_puzzle (gridBoard grid, l2) with ⟨o, logr⟩
  rw [hredv] at hred
  simp only at hred
  subst hred
  rfl

/-- A complete board that is a valid plain sudoku (rows, columns, boxes) but
violates both diagonals; its only solution as a plain puzzle is itself, so a
diagonal solver must report it unsolvable.  `B2` and `D4` both hold `5` on
the main diagonal. -/
def cyclicGrid : List Char :=
  "123456789456789123789123456234567891567891234891234567345678912678912345912345678".toList

/-- **C2.** The topology always contains exactly these 29 units — the 9 rows,
9 columns, 9 3×3 boxes, the main diagonal `A1..I9` and the anti-diagonal
`A9..I1` — with no configuration to omit the diagonals; consequently `solve`
enforces the diagonal constraints on every call, and a plain-valid grid whose
only solutions violate a diagonal is reported unsolvable (`None`, Python
`False`). -/
theorem C2_topology_has_29_units_with_diagonals :
    unitlist =
  [[['A', '1'], ['A', '2'], ['A', '3'], ['A', '4'], ['A', '5'], ['A', '6'], ['A', '7'], ['A', '8'], ['A', '9']],
   [['B', '1'], ['B', '2'], ['B', '3'], ['B', '4'], ['B', '5'], ['B', '6'], ['B', '7'], ['B', '8'], ['B', '9']],
   [['C', '1'], ['C', '2'], ['C', '3'], ['C', '4'], ['C', '5'], ['C', '6'], ['C', '7'], ['C', '8'], ['C', '9']],
   [['D', '1'], ['D', '2'], ['D', '3'], ['D', '4'], ['D', '5'], ['D', '6'], ['D', '7'], ['D', '8'], ['D', '9']],
   [['E', '1'], ['E', '2'], ['E', '3'], ['E', '4'], ['E', '5'], ['E', '6'], ['E', '7'], ['E', '8'], ['E', '9']],
   [['F', '1'], ['F', '2'], ['F', '3'], ['F', '4'], ['F', '5'], ['F', '6'], ['F', '7'], ['F', '8'], ['F', '9']],
   [['G', '1'], ['G', '2'], ['G', '3'], ['G', '4'], ['G', '5'], ['G', '6'], ['G', '7'], ['G', '8'], ['G', '9']],
   [['H', '1'], ['H', '2'], ['H', '3'], ['H', '4'], ['H', '5'], ['H', '6'], ['H', '7'], ['H', '8'], ['H', '9']],
   [['I', '1'], ['I', '2'], ['I', '3'], ['I', '4'], ['I', '5'], ['I', '6'], ['I', '7'], ['I', '8'], ['I', '9']],
   [['A', '1'], ['B', '1'], ['C', '1'], ['D', '1'], ['E', '1'], ['F', '1'], ['G', '1'], ['H', '1'], ['I', '1']],
   [['A', '2'], ['B', '2'], ['C', '2'], ['D', '2'], ['E', '2'], ['F', '2'], ['G', '2'], ['H', '2'], ['I', '2']],
   [['A', '3'], ['B', '3'], ['C', '3'], ['D', '3'], ['E', '3'], ['F', '3'], ['G', '3'], ['H', '3'], ['I', '3']],
   [['A', '4'], ['B', '4'], ['C', '4'], ['D', '4'], ['E', '4'], ['F', '4'], ['G', '4'], ['H', '4'], ['I', '4']],
   [['A', '5'], ['B', '5'], ['C', '5'], ['D', '5'], ['E', '5'], ['F', '5'], ['G', '5'], ['H', '5'], ['I', '5']],
   [['A', '6'], ['B', '6'], ['C', '6'], ['D', '6'], ['E', '6'], ['F', '6'], ['G', '6'], ['H', '6'], ['I', '6']],
   [['A', '7'], ['B', '7'], ['C', '7'], ['D', '7'], ['E', '7'], ['F', '7'], ['G', '7'], ['H', '7'], ['I', '7']],
   [['A', '8'], ['B', '8'], ['C', '8'], ['D', '8'], ['E', '8'], ['F', '8'], ['G', '8'], ['H', '8'], ['I', '8']],
   [['A', '9'], ['B', '9'], ['C', '9'], ['D', '9'], ['E', '9'], ['F', '9'], ['G', '9'], ['H', '9'], ['I', '9']],
   [['A', '1'], ['A', '2'], ['A', '3'], ['B', '1'], ['B', '2'], ['B', '3'], ['C', '1'], ['C', '2'], ['C', '3']],
   [['A', '4'], ['A', '5'], ['A', '6'], ['B', '4'], ['B', '5'], ['B', '6'], ['C', '4'], ['C', '5'], ['C', '6']],
   [['A', '7'], ['A', '8'], ['A', '9'], ['B', '7'], ['B', '8'], ['B', '9'], ['C', '7'], ['C', '8'], ['C', '9']],
   [['D', '1'], ['D', '2'], ['D', '3'], ['E', '1'], ['E', '2'], ['E', '3'], ['F', '1'], ['F', '2'], ['F', '3']],
   [['D', '4'], ['D', '5'], ['D', '6'], ['E', '4'], ['E', '5'], ['E', '6'], ['F', '4'], ['F', '5'], ['F', '6']],
   [['D', '7'], ['D', '8'], ['D', '9'], ['E', '7'], ['E', '8'], ['E', '9'], ['F', '7'], ['F', '8'], ['F', '9']],
   [['G', '1'], ['G', '2'], ['G', '3'], ['H', '1'], ['H', '2'], ['H', '3'], ['I', '1'], ['I', '2'], ['I', '3']],
   [['G', '4'], ['G', '5'], ['G', '6'], ['H', '4'], ['H', '5'], ['H', '6'], ['I', '4'], ['I', '5'], ['I', '6']],
   [['G', '7'], ['G', '8'], ['G', '9'], ['H', '7'], ['H', '8'], ['H', '9'], ['I', '7'], ['I', '8'], ['I', '9']],
   [['A', '1'], ['B', '2'], ['C', '3'], ['D', '4'], ['E', '5'], ['F', '6'], ['G', '7'], ['H', '8'], ['I', '9']],
   [['A', '9'], ['B', '8'], ['C', '7'], ['D', '6'], ['E', '5'], ['F', '4'], ['G', '3'], ['H', '2'], ['I', '1']]] ∧
    unitlist.length = 29 ∧
    (solve cyclicGrid []).1 = none := by
  refine ⟨by decide, by decide, ?_⟩
  exact solve_conflict []
    (show (['B','2'] : Box) ∈ keysOf (gridBoard cyclicGrid) by decide)
    (show (['D','4'] : Box) ∈ keysOf (gridBoard cyclicGrid) by decide)
    (show (['D','4'] : Box) ∈ peers ['B','2'] by decide)
    (show bGet (gridBoard cyclicGrid) ['B','2'] = ['5'] by decide)
    (show bGet (gridBoard cyclicGrid) ['D','4'] = ['5'] by decide)

/-- C10 as stated is false: `B2` lies on the main diagonal yet has 26 peers,
above the claimed bound of 22–24 (and `E5` even has 32). -/
theorem C10_counterexample :
    (['B','2'] : Box) ∈ (left_diagonal_units ++ right_diagonal_units).flatten ∧
    (peers ['B','2']).length = 26 ∧
    ¬((peers ['B','2']).length ≤ 24) := by
  refine ⟨by decide, by decide, by decide⟩

/-- **C10 (amended).** `peers` maps each box to exactly the boxes sharing at
least one unit with it, the box itself excluded.  A box on neither diagonal
has 20 peers; a box on one diagonal has 26; the centre `E5`, on both
diagonals, has 32. -/
theorem C10_peers_amended :
    (∀ b p : Box, p ∈ peers b ↔ p ≠ b ∧ ∃ u ∈ unitlist, b ∈ u ∧ p ∈ u) ∧
    (∀ b ∈ boxes, (peers b).length =
      if b = ['E','5'] then 32
      else if b ∈ (left_diagonal_units ++ right_diagonal_units).flatten then 26
      else 20) := by
  refine ⟨fun b p => mem_peers, by decide⟩


/-- Witness for the amended C10 at a box off both diagonals. -/
theorem C10_witness :
    (peers ['A','4']).length =
      (if (['A','4'] : Box) = ['E','5'] then 32
       else if (['A','4'] : Box) ∈ (left_diagonal_units ++ right_diagonal_units).flatten
       then 26 else 20) :=
  C10_peers_amended.2 ['A','4'] (by decide)

/-!
## The search only ever narrows the initial candidates
-/

theorem searchF_some_shrinks :
    ∀ (fuel : Nat) (st : St) {r : Board} {l2 : Log},
      searchF fuel st = (some r, l2) → Shrinks r st.1 := by
  intro fuel
  induction fuel with
  | zero =>
    intro st r l2 h
    rw [searchF_zero] at h
    exact (pair_ne_some h).elim
  | succ fuel ih =>
    intro st r l2 h
    rw [searchF_succ] at h
    unfold searchStep at h
    split at h
    · exact (pair_ne_some h).elim
    · rename_i r0 log hred
      have hshr : Shrinks r0 st.1 := reduce_some_shrinks hred
      split at h
      · rename_i hpick
        have hr : r0 = r := (some_pair_inj h).1
        subst hr
        exact hshr
      · rename_i b hpick
        obtain ⟨c, hc, log0, hres⟩ := tryValsWith_some h
        have hshr2 : Shrinks r (assign_value (bSet r0 b [c], log0) b [c]).1 :=
          ih _ hres
        have hboard : (assign_value (bSet r0 b [c], log0) b [c]).1 = bSet r0 b [c] := by
          rw [assign_value_board]
          exact bSet_bSet_same _ _ _ _
        rw [hboard] at hshr2
        exact shrinks_trans (shrinks_trans hshr2
          (shrinks_bSet (List.singleton_sublist.mpr hc))) hshr

/-!
## Characterisation of the grid codec
-/

theorem zip_take_self : ∀ (bs : List Box) (g : List Char),
    bs.zip g = bs.zip (g.take bs.length) := by
  intro bs
  induction bs with
  | nil => intro g; simp
  | cons b bs ih =>
    intro g
    cases g with
    | nil => simp
    | cons c g => simp [ih g]

theorem gridBoard_take (grid : List Char) :
    gridBoard grid = gridBoard (grid.take 81) := by
  unfold gridBoard
  rw [zip_take_self boxes grid, zip_take_self boxes (grid.take 81), boxes_length,
    List.take_take]
  simp

theorem gridBoard_bGet_given {grid : List Char} {t : Box × Char}
    (ht : t ∈ boxes.zip grid) (hne : t.2 ≠ '.') :
    bGet (gridBoard grid) t.1 = [t.2] := by
  apply bGet_of_mem (keysOf_gridBoard_nodup grid)
  unfold gridBoard
  exact List.mem_map.mpr ⟨t, ht, by rw [if_neg hne]⟩

theorem gridBoard_bGet_dot {grid : List Char} {t : Box × Char}
    (ht : t ∈ boxes.zip grid) (hdot : t.2 = '.') :
    bGet (gridBoard grid) t.1 = digits := by
  apply bGet_of_mem (keysOf_gridBoard_nodup grid)
  unfold gridBoard
  exact List.mem_map.mpr ⟨t, ht, by rw [if_pos hdot]⟩

theorem key_of_zip_mem {grid : List Char} {t : Box × Char}
    (ht : t ∈ boxes.zip grid) : t.1 ∈ keysOf (gridBoard grid) := by
  unfold gridBoard keysOf
  rw [List.map_map]
  refine List.mem_map.mpr ⟨t, ht, ?_⟩
  by_cases hc : t.2 = '.' <;> simp [hc]

/-- C3 as stated is false at this input: an 82-character string raises no
error; `grid_values` silently ignores the extra character and returns exactly
the state of the 81-character prefix. -/
theorem C3_counterexample :
    (solvedGrid ++ ['5']).length = 82 ∧
    grid_values (solvedGrid ++ ['5']) [] = grid_values solvedGrid [] := by
  constructor
  · decide
  · unfold grid_values
    rw [show gridBoard (solvedGrid ++ ['5']) = gridBoard solvedGrid from by
      rw [gridBoard_take (solvedGrid ++ ['5']),
        show (solvedGrid ++ ['5']).take 81 = solvedGrid from by decide]]

/-- **C3 (amended).** The grid codec performs no validation at all.
Characters past position 81 are silently dropped (`zip` truncation); an input
shorter than 81 silently yields a board with fewer than 81 boxes; any
character other than `'.'` — a digit or not — is stored unchanged as the sole
value of its box, and `'.'` is expanded to the full digit string.  No error
is ever raised at the codec boundary. -/
theorem C3_grid_codec_amended :
    (∀ grid : List Char, gridBoard grid = gridBoard (grid.take 81)) ∧
    (∀ grid : List Char, keysOf (gridBoard grid) = boxes.take grid.length) ∧
    (∀ grid : List Char, ∀ t ∈ boxes.zip grid, t.2 ≠ '.' →
      bGet (gridBoard grid) t.1 = [t.2]) ∧
    (∀ grid : List Char, ∀ t ∈ boxes.zip grid, t.2 = '.' →
      bGet (gridBoard grid) t.1 = digits) :=
  ⟨gridBoard_take, keysOf_gridBoard,
   fun _ _ ht hne => gridBoard_bGet_given ht hne,
   fun _ _ ht hdot => gridBoard_bGet_dot ht hdot⟩

/-- A grid with just two givens (`A1 = '1'`, `I9 = '5'`). -/
def twoGivensGrid : List Char :=
  "1...............................................................................5".toList

/-- Witness for the amended C3. -/
theorem C3_amended_witness :
    keysOf (gridBoard (solvedGrid.take 80)) = boxes.take (solvedGrid.take 80).length ∧
    bGet (gridBoard solvedGrid) ['A','1'] = ['2'] ∧
    bGet (gridBoard twoGivensGrid) ['A','2'] = digits := by
  refine ⟨C3_grid_codec_amended.2.1 (solvedGrid.take 80), ?_, ?_⟩
  · exact C3_grid_codec_amended.2.2.1 solvedGrid (['A','1'], '2') (by decide) (by decide)
  · exact C3_grid_codec_amended.2.2.2 twoGivensGrid (['A','2'], '.') (by decide) (by decide)

/-- **C6.** For every solvable 81-character grid over `[1-9.]`, every given
digit (a non-`'.'` character, positionally paired with its box) still appears
as the sole value of that box in the board returned by `solve`. -/
theorem C6_givens_preserved (grid : List Char) (log l2 : Log) (r : Board)
    (hlen : grid.length = 81)
    (hchars : ∀ c ∈ grid, c = '.' ∨ c ∈ digits)
    (hsolve : solve grid log = (some r, l2)) :
    ∀ t ∈ boxes.zip grid, t.2 ≠ '.' → bGet r t.1 = [t.2] := by
  obtain ⟨lmid, hs⟩ := solve_eq_searchF grid log
  rw [hs] at hsolve
  have hnd := keysOf_gridBoard_nodup grid
  have hdig := gridBoard_digitsOnly hchars
  obtain ⟨hk, hd, hsing, hnc⟩ :=
    searchF_some_solved _ (gridBoard grid, lmid) hnd hdig hsolve
  have hshr : Shrinks r (gridBoard grid) := searchF_some_shrinks _ _ hsolve
  intro t ht hne
  have hinit : bGet (gridBoard grid) t.1 = [t.2] := gridBoard_bGet_given ht hne
  have hsub : (bGet r t.1).Sublist [t.2] := by
    have h2 := shrinks_bGet hshr t.1
    rw [hinit] at h2
    exact h2
  have ht1 : t.1 ∈ keysOf r := by
    rw [hk]
    exact key_of_zip_mem ht
  obtain ⟨d, hdr⟩ := hsing t.1 ht1
  rw [hdr] at hsub ⊢
  have : d ∈ [t.2] := List.singleton_sublist.mp hsub
  rw [List.mem_singleton.mp this]

/-- Witness for C6: the solved example grid, whose givens are all 81 cells. -/
theorem C6_witness :
    bGet (gridBoard solvedGrid) ['A','1'] = ['2'] ∧
    ∀ t ∈ boxes.zip solvedGrid, t.2 ≠ '.' →
      bGet (gridBoard solvedGrid) t.1 = [t.2] := by
  refine ⟨by decide, ?_⟩
  refine C6_givens_preserved solvedGrid [] (solve solvedGrid []).2
    (gridBoard solvedGrid) (by decide) (by decide) ?_
  have h1 := solve_solved ([] : Log) solvedGrid_valid
  calc solve solvedGrid []
      = ((solve solvedGrid []).1, (solve solvedGrid []).2) := (Prod.mk.eta).symm
    _ = (some (gridBoard solvedGrid), (solve solvedGrid []).2) := by rw [h1]


/-!
## The assignments log: append-only, and when snapshots happen
-/

theorem assign_log_extends (st : St) (b : Box) (x : Value) :
    ∃ t, (assign_value st b x).2 = st.2 ++ t := by
  unfold assign_value
  dsimp only
  split
  · exact ⟨[bSet st.1 b x], rfl⟩
  · exact ⟨[], by simp⟩

theorem foldl_log_extends {α : Type} {f : St → α → St}
    (hf : ∀ s a, ∃ t, (f s a).2 = s.2 ++ t) :
    ∀ (l : List α) (st : St), ∃ t, (l.foldl f st).2 = st.2 ++ t := by
  intro l
  induction l with
  | nil => intro st; exact ⟨[], by simp⟩
  | cons a l ih =>
    intro st
    obtain ⟨t2, h2⟩ := ih (f st a)
    obtain ⟨t1, h1⟩ := hf st a
    exact ⟨t1 ++ t2, by rw [List.foldl_cons, h2, h1, List.append_assoc]⟩

theorem elimPeerStep_log (digit : Value) (s2 : St) (peer : Box) :
    ∃ t, (elimPeerStep digit s2 peer).2 = s2.2 ++ t := by
  unfold elimPeerStep
  dsimp only
  exact assign_log_extends _ _ _

theorem eliminate_log (st : St) : ∃ t, (eliminate st).2 = st.2 ++ t := by
  unfold eliminate
  dsimp only
  exact foldl_log_extends (fun s a => by
    unfold elimBoxStep
    exact foldl_log_extends (fun s2 p => elimPeerStep_log _ s2 p) _ s) _ st

theorem ocDigitStep_log (unit : List Box) (s2 : St) (digit : Char) :
    ∃ t, (ocDigitStep unit s2 digit).2 = s2.2 ++ t := by
  unfold ocDigitStep
  dsimp only
  rcases unit.filter (fun box => (bGet s2.1 box).contains digit) with _ | ⟨b0, rest⟩
  · exact ⟨[], by simp⟩
  · rcases rest with _ | ⟨b1, rest⟩
    · exact assign_log_extends _ _ _
    · exact ⟨[], by simp⟩

theorem only_choice_log (st : St) : ∃ t, (only_choice st).2 = st.2 ++ t := by
  unfold only_choice
  exact foldl_log_extends (fun s u =>
    foldl_log_extends (fun s2 d => ocDigitStep_log u s2 d) _ s) _ st

theorem ntBoxStep_log (pair : Value) (a : St) (box : Box) :
    ∃ t, (ntBoxStep pair a box).2 = a.2 ++ t := by
  unfold ntBoxStep
  split
  · exact ⟨[], by simp⟩
  · split
    · dsimp only
      exact assign_log_extends _ _ _
    · exact ⟨[], by simp⟩

theorem nt_unit_log (acc : St) (unit : List Box) :
    ∃ t, (nt_unit acc unit).2 = acc.2 ++ t := by
  unfold nt_unit
  dsimp only
  split
  · split
    · exact foldl_log_extends (fun a b => ntBoxStep_log _ a b) _ acc
    · exact ⟨[], by simp⟩
  · exact ⟨[], by simp⟩

theorem naked_twins_log (st : St) : ∃ t, (naked_twins st).2 = st.2 ++ t :=
  foldl_log_extends (fun s u => nt_unit_log s u) _ st

theorem pipeline_log (st : St) :
    ∃ t, (naked_twins (only_choice (eliminate st))).2 = st.2 ++ t := by
  obtain ⟨t1, h1⟩ := eliminate_log st
  obtain ⟨t2, h2⟩ := only_choice_log (eliminate st)
  obtain ⟨t3, h3⟩ := naked_twins_log (only_choice (eliminate st))
  exact ⟨t1 ++ t2 ++ t3, by rw [h3, h2, h1]; simp [List.append_assoc]⟩

theorem reduceLoop_log :
    ∀ (fuel : Nat) (st : St), ∃ t, (reduceLoop fuel st).2 = st.2 ++ t := by
  intro fuel
  induction fuel with
  | zero => intro st; exact ⟨[], by simp [reduceLoop]⟩
  | succ fuel ih =>
    intro st
    obtain ⟨t1, h1⟩ := pipeline_log st
    simp only [reduceLoop]
    split
    · refine ⟨t1, ?_⟩
      dsimp only
      exact h1
    · split
      · refine ⟨t1, ?_⟩
        dsimp only
        exact h1
      · obtain ⟨t2, h2⟩ := ih (naked_twins (only_choice (eliminate st)))
        exact ⟨t1 ++ t2, by rw [h2, h1, List.append_assoc]⟩

theorem reduce_puzzle_log (st : St) : ∃ t, (reduce_puzzle st).2 = st.2 ++ t :=
  reduceLoop_log _ st

theorem tryValsWith_log {f : St → Option Board × Log}
    (hf : ∀ st : St, ∃ t, (f st).2 = st.2 ++ t) :
    ∀ (cs : List Char) (r : Board) (b : Box) (log : Log),
      ∃ t, (tryValsWith f r b cs log).2 = log ++ t := by
  intro cs
  induction cs with
  | nil => intro r b log; exact ⟨[], by simp [tryValsWith]⟩
  | cons c cs ih =>
    intro r b log
    simp only [tryValsWith]
    obtain ⟨t0, h0⟩ := assign_log_extends (bSet r b [c], log) b [c]
    obtain ⟨t1, h1⟩ := hf (assign_value (bSet r b [c], log) b [c])
    rcases hres : f (assign_value (bSet r b [c], log) b [c]) with ⟨o, log2⟩
    have hlog2 : log2 = log ++ (t0 ++ t1) := by
      have := h1
      rw [hres] at this
      simp only at this
      rw [this, h0, List.append_assoc]
    cases o with
    | some x => exact ⟨t0 ++ t1, hlog2⟩
    | none =>
      obtain ⟨t2, h2⟩ := ih r b log2
      exact ⟨t0 ++ t1 ++ t2, by rw [h2, hlog2, List.append_assoc]⟩

theorem searchF_log :
    ∀ (fuel : Nat) (st : St), ∃ t, (searchF fuel st).2 = st.2 ++ t := by
  intro fuel
  induction fuel with
  | zero => intro st; exact ⟨[], by simp [searchF_zero]⟩
  | succ fuel ih =>
    intro st
    rw [searchF_succ]
    unfold searchStep
    obtain ⟨t1, h1⟩ := reduce_puzzle_log st
    rcases hred : reduce_puzzle st with ⟨o, logr⟩
    have hlogr : logr = st.2 ++ t1 := by
      rw [hred] at h1
      simpa using h1
    cases o with
    | none => exact ⟨t1, hlogr⟩
    | some r =>
      dsimp only
      rcases pickLeast r with _ | b
      · exact ⟨t1, hlogr⟩
      · obtain ⟨t2, h2⟩ := tryValsWith_log ih (bGet r b) r b logr
        exact ⟨t1 ++ t2, by rw [h2, hlogr, List.append_assoc]⟩

theorem grid_values_log_extends (grid : List Char) (log : Log) :
    ∃ t, (grid_values grid log).2 = log ++ t := by
  unfold grid_values
  exact foldl_log_extends (fun s (p : Box × Value) => assign_log_extends s p.1 p.2) _ _

theorem solve_log_extends (grid : List Char) (log : Log) :
    ∃ t, (solve grid log).2 = log ++ t := by
  unfold solve
  obtain ⟨t1, h1⟩ := grid_values_log_extends grid log
  obtain ⟨t2, h2⟩ := foldl_log_extends (fun s (p : Box × Value) => assign_log_extends s p.1 p.2)
    (grid_values grid log).1 (grid_values grid log)
  obtain ⟨t3, h3⟩ := searchF_log
    (totalLen ((grid_values grid log).1.foldl
      (fun acc p => assign_value acc p.1 p.2) (grid_values grid log)).1 + 1)
    ((grid_values grid log).1.foldl (fun acc p => assign_value acc p.1 p.2)
      (grid_values grid log))
  exact ⟨t1 ++ t2 ++ t3, by
    rw [h3, h2, h1]; simp [List.append_assoc]⟩

theorem foldl_assign_log_length :
    ∀ (l : List (Box × Value)) (st : St),
      (l.foldl (fun acc p => assign_value acc p.1 p.2) st).2.length =
      st.2.length + (l.filter (fun p => p.2.length == 1)).length := by
  intro l
  induction l with
  | nil => intro st; simp
  | cons p l ih =>
    intro st
    rw [List.foldl_cons, ih]
    have hstep : (assign_value st p.1 p.2).2.length =
        st.2.length + (if p.2.length = 1 then 1 else 0) := by
      unfold assign_value
      dsimp only
      split
      · rename_i hl; simp [hl]
      · rename_i hl; simp [hl]
    rw [hstep]
    by_cases hl : p.2.length = 1
    · simp [List.filter_cons, hl]
      omega
    · simp [List.filter_cons, hl]

theorem mapper_filter_len : ∀ (l : List (Box × Char)),
    ((l.map (fun t => if t.2 = '.' then (t.1, digits) else (t.1, [t.2]))).filter
      (fun p => p.2.length == 1)).length =
    (l.filter (fun t => decide (t.2 ≠ '.'))).length := by
  intro l
  induction l with
  | nil => simp
  | cons t l ih =>
    by_cases hc : t.2 = '.'
    · simp only [List.map_cons, if_pos hc, List.filter_cons]
      rw [if_neg (by simp [digits]), if_neg (by simp [hc])]
      exact ih
    · simp only [List.map_cons, if_neg hc, List.filter_cons]
      rw [if_pos (by simp), if_pos (by simp [hc])]
      simp [ih]

theorem grid_values_log_length (grid : List Char) (log : Log) :
    (grid_values grid log).2.length =
      log.length + ((boxes.zip grid).filter (fun t => decide (t.2 ≠ '.'))).length := by
  unfold grid_values
  dsimp only
  rw [foldl_assign_log_length]
  unfold gridBoard
  rw [mapper_filter_len]

/-- C5 as stated is false at this concrete input: with two givens,
`grid_values` logs only 2 snapshots, not the claimed 81 initial assignments;
and `assign_value` appends a snapshot for a cell that is *already* solved
with the same value, not only when a cell becomes length 1. -/
theorem C5_counterexample :
    twoGivensGrid.length = 81 ∧
    (grid_values twoGivensGrid []).2.length = 2 ∧
    (assign_value (([(['A','1'], ['7'])] : Board), ([] : Log)) ['A','1'] ['7']).2.length = 1 := by
  refine ⟨by decide, ?_, by decide⟩
  rw [grid_values_log_length]
  decide

/-- **C5 (amended).** The assignments log is append-only — every solver
function only ever appends to it — and a snapshot is appended at exactly
every `assign_value` call whose value has length 1, including re-assignments
of already-solved cells.  During `grid_values` this logs one snapshot per
given cell (and none for the `'.'` cells), so the log does not start with 81
initial assignment snapshots but with one per given (and `solve`'s own replay
loop then appends one more per given). -/
theorem C5_log_amended :
    (∀ st : St, ∀ b : Box, ∀ x : Value, x.length = 1 →
      (assign_value st b x).2 = st.2 ++ [bSet st.1 b x]) ∧
    (∀ st : St, ∀ b : Box, ∀ x : Value, x.length ≠ 1 →
      (assign_value st b x).2 = st.2) ∧
    (∀ grid : List Char, ∀ log : Log, (grid_values grid log).2.length =
      log.length + ((boxes.zip grid).filter (fun t => decide (t.2 ≠ '.'))).length) ∧
    (∀ grid : List Char, ∀ log : Log, ∃ t, (solve grid log).2 = log ++ t) := by
  refine ⟨?_, ?_, fun g l => grid_values_log_length g l, fun g l => solve_log_extends g l⟩
  · intro st b x hx
    unfold assign_value
    dsimp only
    rw [if_pos hx]
  · intro st b x hx
    unfold assign_value
    dsimp only
    rw [if_neg hx]

/-- Witness for the amended C5. -/
theorem C5_amended_witness :
    (assign_value (([(['A','1'], digits)] : Board), ([] : Log)) ['A','1'] ['3']).2 =
      [] ++ [bSet [(['A','1'], digits)] ['A','1'] ['3']] ∧
    (assign_value (([(['A','1'], digits)] : Board), ([] : Log)) ['A','1'] ['3','4']).2 = [] ∧
    (grid_values twoGivensGrid []).2.length =
      ([] : Log).length +
        ((boxes.zip twoGivensGrid).filter (fun t => decide (t.2 ≠ '.'))).length := by
  refine ⟨C5_log_amended.1 _ _ _ (by decide), C5_log_amended.2.1 _ _ _ (by decide),
    C5_log_amended.2.2.1 twoGivensGrid []⟩


/-!
## C7: which box `search` branches on
-/

/-- Invariant of the selection loop of `search` after processing the entries
`seen`: `none` means every entry seen so far is solved (length ≤ 1);
`some b` means `b` is an unsolved entry seen so far, every entry strictly
before it is solved or strictly longer, and every entry after it is solved
or at least as long — i.e. `b` is the first entry of minimal length > 1. -/
def pickInv (v : Board) (seen : List (Box × Value)) : Option Box → Prop
  | none => ∀ p ∈ seen, p.2.length ≤ 1
  | some b => ∃ l1 bv l2, seen = l1 ++ (b, bv) :: l2 ∧ bGet v b = bv ∧
      2 ≤ bv.length ∧
      (∀ q ∈ l1, q.2.length ≤ 1 ∨ bv.length < q.2.length) ∧
      (∀ q ∈ l2, q.2.length ≤ 1 ∨ bv.length ≤ q.2.length)

theorem pick_foldl_inv (v : Board) :
    ∀ (l seen : List (Box × Value)) (acc : Option Box),
      (∀ p ∈ l, bGet v p.1 = p.2) → pickInv v seen acc →
      pickInv v (seen ++ l) (l.foldl (pickStep v) acc) := by
  intro l
  induction l with
  | nil => intro seen acc _ hinv; simpa using hinv
  | cons p l ih =>
    intro seen acc hl hinv
    have hbp : bGet v p.1 = p.2 := hl p (List.mem_cons_self p l)
    have hl2 : ∀ q ∈ l, bGet v q.1 = q.2 :=
      fun q hq => hl q (List.mem_cons_of_mem p hq)
    have hstep : pickInv v (seen ++ [p]) (pickStep v acc p) := by
      unfold pickStep
      by_cases hlen : p.2.length > 1
      · rw [if_pos hlen]
        cases acc with
        | none =>
          dsimp only [Option.getD]
          rw [hbp, if_neg (lt_irrefl p.2.length)]
          refine ⟨seen, p.2, [], by rw [Prod.mk.eta], hbp, hlen, ?_, ?_⟩
          · intro q hq
            exact Or.inl (hinv q hq)
          · intro q hq
            simp at hq
        | some a =>
          obtain ⟨l1, av, l2, hseen, hga, hav2, hfst, hsnd⟩ := hinv
          dsimp only [Option.getD]
          rw [hga]
          by_cases hcond : p.2.length < av.length
          · rw [if_pos hcond]
            refine ⟨seen, p.2, [], by rw [Prod.mk.eta], hbp, hlen, ?_, ?_⟩
            · intro q hq
              rw [hseen] at hq
              rcases List.mem_append.mp hq with hq1 | hq1
              · rcases hfst q hq1 with h1 | h1
                · exact Or.inl h1
                · exact Or.inr (lt_trans hcond h1)
              · rcases List.mem_cons.mp hq1 with hq2 | hq2
                · subst hq2
                  exact Or.inr hcond
                · rcases hsnd q hq2 with h1 | h1
                  · exact Or.inl h1
                  · exact Or.inr (lt_of_lt_of_le hcond h1)
            · intro q hq
              simp at hq
          · rw [if_neg hcond]
            refine ⟨l1, av, l2 ++ [p], by rw [hseen]; simp, hga, hav2, hfst, ?_⟩
            intro q hq
            rcases List.mem_append.mp hq with hq1 | hq1
            · exact hsnd q hq1
            · rcases List.mem_singleton.mp hq1 with hq2
              subst hq2
              exact Or.inr (Nat.le_of_not_lt hcond)
      · rw [if_neg hlen]
        have hp1 : p.2.length ≤ 1 := Nat.le_of_not_lt hlen
        cases acc with
        | none =>
          intro q hq
          rcases List.mem_append.mp hq with hq1 | hq1
          · exact hinv q hq1
          · rw [List.mem_singleton.mp hq1]
            exact hp1
        | some a =>
          obtain ⟨l1, av, l2, hseen, hga, hav2, hfst, hsnd⟩ := hinv
          refine ⟨l1, av, l2 ++ [p], by rw [hseen]; simp, hga, hav2, hfst, ?_⟩
          intro q hq
          rcases List.mem_append.mp hq with hq1 | hq1
          · exact hsnd q hq1
          · rw [List.mem_singleton.mp hq1]
            exact Or.inl hp1
    have hsplit : seen ++ p :: l = (seen ++ [p]) ++ l := by simp
    rw [hsplit]
    exact ih (seen ++ [p]) (pickStep v acc p) hl2 hstep

theorem pickLeast_some_spec {v : Board} {b : Box}
    (hnd : (keysOf v).Nodup) (hp : pickLeast v = some b) :
    ∃ l1 bv l2, v = l1 ++ (b, bv) :: l2 ∧ bGet v b = bv ∧ 2 ≤ bv.length ∧
      (∀ q ∈ l1, q.2.length ≤ 1 ∨ bv.length < q.2.length) ∧
      (∀ q ∈ l2, q.2.length ≤ 1 ∨ bv.length ≤ q.2.length) := by
  have h := pick_foldl_inv v v [] none (entries_self_bGet hnd)
    (by intro p hp2; simp at hp2)
  rw [List.nil_append] at h
  unfold pickLeast at hp
  rw [hp] at h
  exact h

/-- **C7.** When `search` branches, the box `pickLeast` selects is
undetermined (candidate length ≥ 2), has minimal candidate length among all
undetermined boxes, and is the first such box in row-major order `A1 … I9`
(the dictionary's key order, which equals `boxes`): every box strictly
before it is solved or has strictly more candidates. -/
theorem C7_branch_cell_minimal (v : Board) (b : Box)
    (hkeys : keysOf v = boxes) (hp : pickLeast v = some b) :
    2 ≤ (bGet v b).length ∧
    (∀ b2 ∈ boxes, (bGet v b2).length ≤ 1 ∨
      (bGet v b).length ≤ (bGet v b2).length) ∧
    ∃ l1 l2, boxes = l1 ++ b :: l2 ∧
      ∀ b2 ∈ l1, (bGet v b2).length ≤ 1 ∨
        (bGet v b).length < (bGet v b2).length := by
  have hnd : (keysOf v).Nodup := by rw [hkeys]; exact boxes_nodup
  obtain ⟨l1, bv, l2, hsplit, hbv, h2, hfst, hsnd⟩ := pickLeast_some_spec hnd hp
  have hself : ∀ q ∈ v, bGet v q.1 = q.2 := entries_self_bGet hnd
  refine ⟨by rw [hbv]; exact h2, ?_, ?_⟩
  · intro b2 hb2
    have hb2k : b2 ∈ keysOf v := by rw [hkeys]; exact hb2
    have hmem : (b2, bGet v b2) ∈ v := mem_of_key hb2k
    have hmem2 : (b2, bGet v b2) ∈ l1 ++ (b, bv) :: l2 := by
      rw [← hsplit]
      exact hmem
    rcases List.mem_append.mp hmem2 with hq | hq
    · rcases hfst _ hq with h1 | h1
      · exact Or.inl h1
      · right
        rw [hbv]
        exact Nat.le_of_lt h1
    · rcases List.mem_cons.mp hq with hq2 | hq2
      · right
        have : bGet v b2 = bv := congrArg Prod.snd hq2
        rw [hbv, this]
      · rcases hsnd _ hq2 with h1 | h1
        · exact Or.inl h1
        · right
          rw [hbv]
          exact h1
  · refine ⟨l1.map Prod.fst, l2.map Prod.fst, ?_, ?_⟩
    · rw [← hkeys]
      unfold keysOf
      rw [hsplit]
      simp
    · intro b2 hb2
      obtain ⟨q, hq, hqb⟩ := List.mem_map.mp hb2
      have hqv : q ∈ v := by
        rw [hsplit]
        exact List.mem_append.mpr (Or.inl hq)
      have hgq : bGet v b2 = q.2 := by rw [← hqb]; exact hself q hqv
      rcases hfst q hq with h1 | h1
      · exact Or.inl (by rw [hgq]; exact h1)
      · right
        rw [hgq, hbv]
        exact h1

/-- A concrete board for the C7 witness: every box holds the full digit
string except `A2`, which holds two candidates. -/
def wpickBoard : Board :=
  boxes.map (fun bx => if bx = ['A','2'] then (bx, ['1','2']) else (bx, digits))

/-- Witness for C7 at a concrete board: the pick is `A2`. -/
theorem C7_witness :
    2 ≤ (bGet wpickBoard ['A','2']).length ∧
    (∀ b2 ∈ boxes, (bGet wpickBoard b2).length ≤ 1 ∨
      (bGet wpickBoard ['A','2']).length ≤ (bGet wpickBoard b2).length) ∧
    ∃ l1 l2, boxes = l1 ++ ['A','2'] :: l2 ∧
      ∀ b2 ∈ l1, (bGet wpickBoard b2).length ≤ 1 ∨
        (bGet wpickBoard ['A','2']).length < (bGet wpickBoard b2).length :=
  C7_branch_cell_minimal wpickBoard ['A','2'] (by decide) (by decide)


/-!
## C4: the naked-twins rule
-/

theorem ntBoxStep_board_other (pair : Value) (a : St) (box bx : Box)
    (hne : bx ≠ box) :
    bGet (ntBoxStep pair a box).1 bx = bGet a.1 bx := by
  unfold ntBoxStep
  split
  · rfl
  · split
    · dsimp only
      rw [assign_value_board, bSet_bSet_same, bGet_bSet_ne _ _ hne,
        bGet_bSet_ne _ _ hne]
    · rfl

theorem nt_fold_board_other (pair : Value) :
    ∀ (l : List Box) (a : St) (bx : Box), bx ∉ l →
      bGet (l.foldl (ntBoxStep pair) a).1 bx = bGet a.1 bx := by
  intro l
  induction l with
  | nil => intro a bx _; rfl
  | cons y l ih =>
    intro a bx hbx
    rw [List.foldl_cons, ih (ntBoxStep pair a y) bx (fun h => hbx (List.mem_cons_of_mem y h)),
      ntBoxStep_board_other pair a y bx (fun h => hbx (h ▸ List.mem_cons_self y l))]

theorem ntBoxStep_result (pair : Value) (a : St) (box : Box)
    (hkey : box ∈ keysOf a.1)
    (h1 : ¬ (bGet a.1 box).length = 1) (h2 : bGet a.1 box ≠ pair) :
    bGet (ntBoxStep pair a box).1 box =
      removeStr [pair.getD 1 ' '] (removeStr [pair.getD 0 ' '] (bGet a.1 box)) := by
  unfold ntBoxStep
  rw [if_neg h1, if_pos h2]
  dsimp only
  rw [assign_value_board, bSet_self]
  have hr1 : bGet (bSet a.1 box (removeStr [pair.getD 0 ' '] (bGet a.1 box))) box =
      removeStr [pair.getD 0 ' '] (bGet a.1 box) := bGet_bSet_self a.1 _ hkey
  rw [hr1]
  have hkey2 : box ∈ keysOf (bSet a.1 box (removeStr [pair.getD 0 ' '] (bGet a.1 box))) := by
    rw [keysOf_bSet]
    exact hkey
  exact bGet_bSet_self _ _ hkey2

theorem nt_fold_removes (pair : Value) (pa pb : Char) (hpair : pair = [pa, pb]) :
    ∀ (l : List Box) (a : St) (bx : Box), bx ∈ l → l.Nodup →
      bx ∈ keysOf a.1 →
      bGet a.1 bx ≠ pair → bGet a.1 bx ≠ [pa] → bGet a.1 bx ≠ [pb] →
      pa ∉ bGet (l.foldl (ntBoxStep pair) a).1 bx ∧
      pb ∉ bGet (l.foldl (ntBoxStep pair) a).1 bx := by
  have hg0 : pair.getD 0 ' ' = pa := by rw [hpair]; rfl
  have hg1 : pair.getD 1 ' ' = pb := by rw [hpair]; rfl
  intro l
  induction l with
  | nil => intro a bx h; simp at h
  | cons y l ih =>
    intro a bx hbx hnd hkey hne hpa hpb
    rw [List.foldl_cons]
    rcases List.mem_cons.mp hbx with heq | hmem
    · subst heq
      have hnotl : bx ∉ l := (List.nodup_cons.mp hnd).1
      rw [nt_fold_board_other pair l (ntBoxStep pair a bx) bx hnotl]
      by_cases h1 : (bGet a.1 bx).length = 1
      · have hskip : ntBoxStep pair a bx = a := by
          unfold ntBoxStep
          rw [if_pos h1]
        rw [hskip]
        rcases List.length_eq_one.mp h1 with ⟨c, hc⟩
        rw [hc]
        constructor
        · intro hm
          apply hpa
          rw [hc, List.mem_singleton.mp hm]
        · intro hm
          apply hpb
          rw [hc, List.mem_singleton.mp hm]
      · rw [ntBoxStep_result pair a bx hkey h1 hne, hg0, hg1,
          removeStr_singleton, removeStr_singleton]
        constructor
        · intro hm
          have := List.mem_filter.mp (List.filter_sublist _ |>.mem hm)
          simp at this
        · intro hm
          have := List.mem_filter.mp hm
          simp at this
    · have hxy : bx ≠ y := by
        intro h
        apply (List.nodup_cons.mp hnd).1
        rw [← h]
        exact hmem
      have hframe : bGet (ntBoxStep pair a y).1 bx = bGet a.1 bx :=
        ntBoxStep_board_other pair a y bx hxy
      have hkeys2 : keysOf (ntBoxStep pair a y).1 = keysOf a.1 :=
        shrinks_keysOf (ntBoxStep_shrinks pair a y)
      refine ih (ntBoxStep pair a y) bx hmem (List.nodup_cons.mp hnd).2 ?_ ?_ ?_ ?_
      · rw [hkeys2]
        exact hkey
      · rw [hframe]
        exact hne
      · rw [hframe]
        exact hpa
      · rw [hframe]
        exact hpb

theorem nt_unit_fires {w : St} {u : List Box} {p0 p1 : Box}
    (hpairs : u.filter (fun bx => (bGet w.1 bx).length == 2) = [p0, p1])
    (hpeq : bGet w.1 p0 = bGet w.1 p1) :
    nt_unit w u = u.foldl (ntBoxStep (bGet w.1 p0)) w := by
  unfold nt_unit
  dsimp only
  rw [hpairs]
  dsimp only
  rw [if_pos hpeq]

theorem nt_unit_removes {w : St} {u : List Box} {p0 p1 : Box} {pa pb : Char}
    (hnd : u.Nodup) (hsub : ∀ bx ∈ u, bx ∈ keysOf w.1)
    (hpairs : u.filter (fun bx => (bGet w.1 bx).length == 2) = [p0, p1])
    (hpeq : bGet w.1 p0 = bGet w.1 p1)
    (hab : bGet w.1 p0 = [pa, pb])
    (hnsolv : ∀ bx ∈ u, bx ≠ p0 → bx ≠ p1 →
      bGet w.1 bx ≠ [pa] ∧ bGet w.1 bx ≠ [pb]) :
    ∀ bx ∈ u, bx ≠ p0 → bx ≠ p1 →
      pa ∉ bGet (nt_unit w u).1 bx ∧ pb ∉ bGet (nt_unit w u).1 bx := by
  intro bx hbx hbp0 hbp1
  rw [nt_unit_fires hpairs hpeq]
  have hvne : bGet w.1 bx ≠ bGet w.1 p0 := by
    intro h
    have hlen2 : (bGet w.1 bx).length = 2 := by rw [h, hab]; rfl
    have hmemf : bx ∈ u.filter (fun b2 => (bGet w.1 b2).length == 2) :=
      List.mem_filter.mpr ⟨hbx, by simp [hlen2]⟩
    rw [hpairs] at hmemf
    rcases List.mem_cons.mp hmemf with h2 | h2
    · exact hbp0 h2
    · exact hbp1 (List.mem_singleton.mp h2)
  obtain ⟨hpa2, hpb2⟩ := hnsolv bx hbx hbp0 hbp1
  exact nt_fold_removes (bGet w.1 p0) pa pb hab u w bx hbx hnd
    (hsub bx hbx) hvne hpa2 hpb2

/-- A board on which the source's naked-twins rule silently does nothing:
`A1` and `A2` are identical naked twins `"12"` in row `A`, but `A3` holds a
third 2-candidate value `"34"`, so `len(pairs) == 2` fails for every unit
containing the twins. -/
def ntcBoard : Board :=
  boxes.map (fun bx =>
    if bx = ['A','1'] then (bx, ['1','2'])
    else if bx = ['A','2'] then (bx, ['1','2'])
    else if bx = ['A','3'] then (bx, ['3','4'])
    else (bx, digits))

/-- C4 as stated is false at this concrete board: row `A` contains the
identical naked twins `A1 = A2 = "12"`, no other cell of the row holds `'1'`
or `'2'` as a solved value, yet after `naked_twins` the cell `A4` still
holds both `'1'` and `'2'` — the rule never fires because a third
2-candidate cell `A3 = "34"` makes `len(pairs) == 2` fail. -/
theorem C4_counterexample :
    cross ['A'] cols ∈ unitlist ∧
    bGet ntcBoard ['A','1'] = ['1','2'] ∧
    bGet ntcBoard ['A','2'] = ['1','2'] ∧
    (∀ bx ∈ cross ['A'] cols, bx ≠ ['A','1'] → bx ≠ ['A','2'] →
      bGet ntcBoard bx ≠ ['1'] ∧ bGet ntcBoard bx ≠ ['2']) ∧
    ['A','4'] ∈ cross ['A'] cols ∧
    ['A','4'] ≠ ['A','1'] ∧ ['A','4'] ≠ ['A','2'] ∧
    '1' ∈ bGet (naked_twins (ntcBoard, [])).1 ['A','4'] ∧
    '2' ∈ bGet (naked_twins (ntcBoard, [])).1 ['A','4'] := by
  decide

/-- **C4 (amended).** The naked-twins elimination holds only under the
stronger precondition actually tested by the code: at the moment the loop
reaches unit `u` (board `w`, after folding the earlier units), the boxes of
`u` with exactly 2 candidates must be *exactly* the twin pair `[p0, p1]` —
`len(pairs) == 2` — with equal values `[pa, pb]`; if additionally no other
box of `u` is solved as `[pa]` or `[pb]`, then after `naked_twins` finishes
no box of `u` other than the twins retains `pa` or `pb`. -/
theorem C4_naked_twins_amended (st : St) (pre post : List (List Box))
    (u : List Box) (p0 p1 : Box) (pa pb : Char)
    (hsplit : unitlist = pre ++ u :: post)
    (hkeys : keysOf st.1 = boxes)
    (hpairs : u.filter
      (fun bx => (bGet (pre.foldl nt_unit st).1 bx).length == 2) = [p0, p1])
    (hpeq : bGet (pre.foldl nt_unit st).1 p0 = bGet (pre.foldl nt_unit st).1 p1)
    (hab : bGet (pre.foldl nt_unit st).1 p0 = [pa, pb])
    (hnsolv : ∀ bx ∈ u, bx ≠ p0 → bx ≠ p1 →
      bGet (pre.foldl nt_unit st).1 bx ≠ [pa] ∧
      bGet (pre.foldl nt_unit st).1 bx ≠ [pb]) :
    ∀ bx ∈ u, bx ≠ p0 → bx ≠ p1 →
      pa ∉ bGet (naked_twins st).1 bx ∧ pb ∉ bGet (naked_twins st).1 bx := by
  intro bx hbx hbp0 hbp1
  have humem : u ∈ unitlist := by
    rw [hsplit]
    exact List.mem_append.mpr (Or.inr (List.mem_cons_self u post))
  have hnd : u.Nodup := (unit_length_nodup u humem).2
  have hkw : keysOf (pre.foldl nt_unit st).1 = boxes := by
    rw [shrinks_keysOf (foldl_shrinks pre (fun s u2 => nt_unit_shrinks s u2) st)]
    exact hkeys
  have hsub : ∀ b2 ∈ u, b2 ∈ keysOf (pre.foldl nt_unit st).1 := by
    intro b2 hb2
    rw [hkw]
    exact unit_sub_boxes u humem b2 hb2
  have hstep := nt_unit_removes hnd hsub hpairs hpeq hab hnsolv bx hbx hbp0 hbp1
  have hnt : naked_twins st = post.foldl nt_unit (nt_unit (pre.foldl nt_unit st) u) := by
    unfold naked_twins
    rw [hsplit, List.foldl_append, List.foldl_cons]
  have hshr : Shrinks (naked_twins st).1 (nt_unit (pre.foldl nt_unit st) u).1 := by
    rw [hnt]
    exact foldl_shrinks post (fun s u2 => nt_unit_shrinks s u2) _
  have hsubl := shrinks_bGet hshr bx
  exact ⟨fun hm => hstep.1 (hsubl.mem hm), fun hm => hstep.2 (hsubl.mem hm)⟩

/-- A board where the amended hypotheses hold for the first unit (row `A`):
`A1` and `A2` are the only 2-candidate boxes of the row. -/
def wntBoard : Board :=
  boxes.map (fun bx =>
    if bx = ['A','1'] then (bx, ['1','2'])
    else if bx = ['A','2'] then (bx, ['1','2'])
    else (bx, digits))

/-- Witness for the amended C4: on `wntBoard` the twins `A1`/`A2` of row `A`
really do eliminate `'1'` and `'2'` from the concrete cell `A4`. -/
theorem C4_amended_witness :
    '1' ∉ bGet (naked_twins (wntBoard, [])).1 ['A','4'] ∧
    '2' ∉ bGet (naked_twins (wntBoard, [])).1 ['A','4'] :=
  C4_naked_twins_amended (wntBoard, []) [] unitlist.tail (cross ['A'] cols)
    ['A','1'] ['A','2'] '1' '2' (by decide) (by decide) (by decide) (by decide)
    (by decide) (by decide) ['A','4'] (by decide) (by decide) (by decide)


/-!
## C8: trial branches of `search` are independent

Boards in the embedding are immutable values; what remains of the source's
`reduced_values.copy()` discipline is that the *board* component of every
solver result depends only on the board component of its input — the log is
the only state shared between trial branches, and it never flows back into
any board.  The lemmas below prove this board/log independence for every
function of the solver, and C8 then exhibits the trial loop as a first-hit
scan of per-candidate searches each starting from the unmodified parent
board `r`.
-/

theorem foldl_bli {α : Type} {f : St → α → St}
    (hf : ∀ (a : α) (st : St) (l2 : Log), (f st a).1 = (f (st.1, l2) a).1) :
    ∀ (l : List α) (st : St) (l2 : Log),
      (l.foldl f st).1 = (l.foldl f (st.1, l2)).1 := by
  intro l
  induction l with
  | nil => intro st l2; rfl
  | cons a l ih =>
    intro st l2
    rw [List.foldl_cons, List.foldl_cons, ih (f st a) ((f (st.1, l2) a).2),
      hf a st l2, Prod.mk.eta]

theorem bli_compose {F : St → St}
    (hF : ∀ (s : St) (l0 : Log), (F s).1 = (F (s.1, l0)).1)
    {s t : St} (h : s.1 = t.1) : (F s).1 = (F t).1 := by
  calc (F s).1 = (F (s.1, t.2)).1 := hF s t.2
    _ = (F (t.1, t.2)).1 := by rw [h]
    _ = (F t).1 := by rw [Prod.mk.eta]

theorem assign_bli (b : Box) (x : Value) (st : St) (l2 : Log) :
    (assign_value st b x).1 = (assign_value (st.1, l2) b x).1 := by
  rw [assign_value_board, assign_value_board]

theorem elimPeerStep_bli (digit : Value) (st : St) (l2 : Log) (peer : Box) :
    (elimPeerStep digit st peer).1 = (elimPeerStep digit (st.1, l2) peer).1 := by
  unfold elimPeerStep
  dsimp only
  rw [assign_value_board, assign_value_board]

theorem elimBoxStep_bli (st : St) (l2 : Log) (box : Box) :
    (elimBoxStep st box).1 = (elimBoxStep (st.1, l2) box).1 := by
  unfold elimBoxStep
  dsimp only
  exact foldl_bli (fun p s l0 => elimPeerStep_bli _ s l0 p) (peers box) st l2

theorem eliminate_bli (st : St) (l2 : Log) :
    (eliminate st).1 = (eliminate (st.1, l2)).1 := by
  unfold eliminate
  dsimp only
  exact foldl_bli (fun b s l0 => elimBoxStep_bli s l0 b) _ st l2

theorem ocDigitStep_bli (unit : List Box) (st : St) (l2 : Log) (digit : Char) :
    (ocDigitStep unit st digit).1 = (ocDigitStep unit (st.1, l2) digit).1 := by
  unfold ocDigitStep
  dsimp only
  rcases hd : unit.filter (fun box => (bGet st.1 box).contains digit) with _ | ⟨b0, rest⟩
  · rfl
  · rcases rest with _ | ⟨b1, rest⟩
    · rw [assign_value_board, assign_value_board]
    · rfl

theorem only_choice_bli (st : St) (l2 : Log) :
    (only_choice st).1 = (only_choice (st.1, l2)).1 := by
  unfold only_choice
  exact foldl_bli
    (fun u s l0 => foldl_bli (fun d s2 l02 => ocDigitStep_bli u s2 l02 d) digits s l0)
    unitlist st l2

theorem ntBoxStep_bli (pair : Value) (st : St) (l2 : Log) (box : Box) :
    (ntBoxStep pair st box).1 = (ntBoxStep pair (st.1, l2) box).1 := by
  unfold ntBoxStep
  by_cases h1 : (bGet st.1 box).length = 1
  · rw [if_pos h1, if_pos h1]
  · rw [if_neg h1, if_neg h1]
    by_cases h2 : bGet st.1 box ≠ pair
    · rw [if_pos h2, if_pos h2]
      dsimp only
      rw [assign_value_board, assign_value_board]
    · rw [if_neg h2, if_neg h2]

theorem nt_unit_bli (st : St) (l2 : Log) (u : List Box) :
    (nt_unit st u).1 = (nt_unit (st.1, l2) u).1 := by
  unfold nt_unit
  dsimp only
  rcases hd : u.filter (fun box => (bGet st.1 box).length == 2) with _ | ⟨p0, rest⟩
  · rfl
  · rcases rest with _ | ⟨p1, rest2⟩
    · rfl
    · rcases rest2 with _ | ⟨p2, rest3⟩
      · dsimp only
        by_cases hpeq : bGet st.1 p0 = bGet st.1 p1
        · rw [if_pos hpeq, if_pos hpeq]
          exact foldl_bli (fun b s l0 => ntBoxStep_bli _ s l0 b) u st l2
        · rw [if_neg hpeq, if_neg hpeq]
      · rfl

theorem naked_twins_bli (st : St) (l2 : Log) :
    (naked_twins st).1 = (naked_twins (st.1, l2)).1 := by
  unfold naked_twins
  exact foldl_bli (fun u s l0 => nt_unit_bli s l0 u) unitlist st l2

theorem pipeline_bli (st : St) (l2 : Log) :
    (naked_twins (only_choice (eliminate st))).1 =
      (naked_twins (only_choice (eliminate (st.1, l2)))).1 :=
  bli_compose naked_twins_bli
    (bli_compose only_choice_bli (eliminate_bli st l2))

theorem reduceLoop_bli : ∀ (fuel : Nat) (st : St) (l2 : Log),
    (reduceLoop fuel st).1 = (reduceLoop fuel (st.1, l2)).1 := by
  intro fuel
  induction fuel with
  | zero => intro st l2; rfl
  | succ fuel ih =>
    intro st l2
    simp only [reduceLoop]
    have hb := pipeline_bli st l2
    rw [← hb]
    by_cases he : anyEmpty (naked_twins (only_choice (eliminate st))).1 = true
    · rw [if_pos he, if_pos he]
    · rw [if_neg he, if_neg he]
      by_cases hs : solvedCount st.1 =
          solvedCount (naked_twins (only_choice (eliminate st))).1
      · rw [if_pos hs, if_pos hs]
      · rw [if_neg hs, if_neg hs]
        calc (reduceLoop fuel (naked_twins (only_choice (eliminate st)))).1
            = (reduceLoop fuel ((naked_twins (only_choice (eliminate st))).1,
                (naked_twins (only_choice (eliminate (st.1, l2)))).2)).1 :=
              ih _ _
          _ = (reduceLoop fuel ((naked_twins (only_choice (eliminate (st.1, l2)))).1,
                (naked_twins (only_choice (eliminate (st.1, l2)))).2)).1 := by
              rw [hb]
          _ = (reduceLoop fuel (naked_twins (only_choice (eliminate (st.1, l2))))).1 := by
              rw [Prod.mk.eta]

theorem reduce_puzzle_bli (st : St) (l2 : Log) :
    (reduce_puzzle st).1 = (reduce_puzzle (st.1, l2)).1 := by
  unfold reduce_puzzle
  dsimp only
  exact reduceLoop_bli _ st l2

theorem tryValsWith_bli {f : St → Option Board × Log}
    (hf : ∀ (s : St) (l0 : Log), (f s).1 = (f (s.1, l0)).1) (r : Board) (b : Box) :
    ∀ (cs : List Char) (l1 l2 : Log),
      (tryValsWith f r b cs l1).1 = (tryValsWith f r b cs l2).1 := by
  intro cs
  induction cs with
  | nil => intro l1 l2; rfl
  | cons c cs ih =>
    intro l1 l2
    simp only [tryValsWith]
    have hb : (assign_value ((bSet r b [c] : Board), l1) b [c]).1 =
        (assign_value ((bSet r b [c] : Board), l2) b [c]).1 := by
      rw [assign_value_board, assign_value_board]
    have hfb : (f (assign_value (bSet r b [c], l1) b [c])).1 =
        (f (assign_value (bSet r b [c], l2) b [c])).1 := by
      calc (f (assign_value (bSet r b [c], l1) b [c])).1
          = (f ((assign_value (bSet r b [c], l1) b [c]).1,
              (assign_value (bSet r b [c], l2) b [c]).2)).1 := hf _ _
        _ = (f ((assign_value (bSet r b [c], l2) b [c]).1,
              (assign_value (bSet r b [c], l2) b [c]).2)).1 := by rw [hb]
        _ = (f (assign_value (bSet r b [c], l2) b [c])).1 := by rw [Prod.mk.eta]
    rcases h1 : f (assign_value (bSet r b [c], l1) b [c]) with ⟨o1, log1b⟩
    rcases h2 : f (assign_value (bSet r b [c], l2) b [c]) with ⟨o2, log2b⟩
    rw [h1, h2] at hfb
    dsimp only at hfb
    subst hfb
    cases o1 with
    | some res => rfl
    | none => exact ih log1b log2b

theorem searchF_bli : ∀ (fuel : Nat) (st : St) (l2 : Log),
    (searchF fuel st).1 = (searchF fuel (st.1, l2)).1 := by
  intro fuel
  induction fuel with
  | zero => intro st l2; rfl
  | succ fuel ih =>
    intro st l2
    rw [searchF_succ, searchF_succ]
    unfold searchStep
    have hb := reduce_puzzle_bli st l2
    rcases h1 : reduce_puzzle st with ⟨o1, log1⟩
    rcases h2 : reduce_puzzle (st.1, l2) with ⟨o2, log2⟩
    rw [h1, h2] at hb
    dsimp only at hb
    subst hb
    cases o1 with
    | none => rfl
    | some r =>
      dsimp only
      rcases pickLeast r with _ | b
      · rfl
      · exact tryValsWith_bli (fun s l0 => ih s l0) r b (bGet r b) log1 log2

/-- First non-`None` result of the candidate trials, in left-to-right order
(what the source's `if op_search_result: return op_search_result` computes). -/
def firstSome : List (Option Board) → Option Board
  | [] => none
  | some r :: _ => some r
  | none :: rest => firstSome rest

theorem firstSome_cons_some (r : Board) (l : List (Option Board)) :
    firstSome (some r :: l) = some r := rfl

theorem firstSome_cons_none (l : List (Option Board)) :
    firstSome (none :: l) = firstSome l := rfl

theorem tryValsWith_firstSome {f : St → Option Board × Log}
    (hf : ∀ (s : St) (l0 : Log), (f s).1 = (f (s.1, l0)).1) (r : Board) (b : Box) :
    ∀ (cs : List Char) (log : Log),
      (tryValsWith f r b cs log).1 =
        firstSome (cs.map (fun c => (f (assign_value (bSet r b [c], []) b [c])).1)) := by
  intro cs
  induction cs with
  | nil => intro log; rfl
  | cons c cs ih =>
    intro log
    simp only [tryValsWith, List.map_cons]
    have hba : (assign_value ((bSet r b [c] : Board), log) b [c]).1 =
        (assign_value ((bSet r b [c] : Board), ([] : Log)) b [c]).1 := by
      rw [assign_value_board, assign_value_board]
    have hfb : (f (assign_value (bSet r b [c], log) b [c])).1 =
        (f (assign_value (bSet r b [c], []) b [c])).1 := by
      calc (f (assign_value (bSet r b [c], log) b [c])).1
          = (f ((assign_value (bSet r b [c], log) b [c]).1,
              (assign_value (bSet r b [c], []) b [c]).2)).1 := hf _ _
        _ = (f ((assign_value (bSet r b [c], []) b [c]).1,
              (assign_value (bSet r b [c], []) b [c]).2)).1 := by rw [hba]
        _ = (f (assign_value (bSet r b [c], []) b [c])).1 := by rw [Prod.mk.eta]
    rcases h1 : f (assign_value (bSet r b [c], log) b [c]) with ⟨o1, log1b⟩
    rw [h1] at hfb
    dsimp only at hfb
    rw [← hfb]
    cases o1 with
    | some res => rfl
    | none =>
      rw [firstSome_cons_none]
      exact ih log1b

/-- **C8.** The trial loop of `search` is a left-to-right first-hit scan of
independent branches: its board result equals the first non-`None` among the
per-candidate searches, where each candidate `c` starts its own search from
the *unmodified* parent board `r` with only `c` assigned at the branch box —
and with an empty log, showing that nothing a sibling branch did (whose only
trace is the log) can influence a branch's board result, and no branch
modifies the parent's reduced board `r`. -/
theorem C8_trials_independent (fuel : Nat) (r : Board) (b : Box)
    (cs : List Char) (log : Log) :
    (tryVals fuel r b cs log).1 =
      firstSome (cs.map (fun c =>
        (searchF fuel (assign_value (bSet r b [c], []) b [c])).1)) := by
  unfold tryVals
  exact tryValsWith_firstSome (fun s l0 => searchF_bli fuel s l0) r b cs log

end AindSudoku
